import Mathlib

/-!
# md5calc: block-wise MD5 of a file with a pool of threads

A model of `md5calc.cpp` and proofs about it.

* `MD5` is the digest function of OpenSSL that `hash_calc::run` calls, after RFC 1321.
* `ifstream`, `ReadLoop`, `loop_body`, `read_loop` are the read loop of `main`.
* `hash_calc`, `Worker`, `Action`, `hash_calc.step` are the class `hash_calc` with its
  threads: a state of the object, and the steps a scheduler can choose between. A thread is
  seen between the sections it executes with `m_mutex` taken; inside `m_cv.wait` it is
  blocked until it is notified (or woken spuriously).
* `parse_args`, `main_setup`, `main_returns`, `main_terminates` are `main` with its exit
  status.

Bytes are natural numbers below 256. Block numbers are integers: the `int` counter of `main`
would overflow only after 2^31 blocks. In the read loop and in the object memory allocation
is taken to succeed; `main_returns` accounts for a block that is too large to allocate.
-/

set_option maxRecDepth 100000

namespace Md5calc
/-- Per-round left-rotation amounts of MD5 (RFC 1321, section 3.4). -/
def md5_shift : List Nat :=
  [7, 12, 17, 22, 7, 12, 17, 22, 7, 12, 17, 22, 7, 12, 17, 22,
   5, 9, 14, 20, 5, 9, 14, 20, 5, 9, 14, 20, 5, 9, 14, 20,
   4, 11, 16, 23, 4, 11, 16, 23, 4, 11, 16, 23, 4, 11, 16, 23,
   6, 10, 15, 21, 6, 10, 15, 21, 6, 10, 15, 21, 6, 10, 15, 21]

/-- Sine-derived round constants of MD5 (RFC 1321, section 3.4). -/
def md5_K : List Nat :=
  [0xd76aa478, 0xe8c7b756, 0x242070db, 0xc1bdceee, 0xf57c0faf, 0x4787c62a, 0xa8304613, 0xfd469501,
   0x698098d8, 0x8b44f7af, 0xffff5bb1, 0x895cd7be, 0x6b901122, 0xfd987193, 0xa679438e, 0x49b40821,
   0xf61e2562, 0xc040b340, 0x265e5a51, 0xe9b6c7aa, 0xd62f105d, 0x02441453, 0xd8a1e681, 0xe7d3fbc8,
   0x21e1cde6, 0xc33707d6, 0xf4d50d87, 0x455a14ed, 0xa9e3e905, 0xfcefa3f8, 0x676f02d9, 0x8d2a4c8a,
   0xfffa3942, 0x8771f681, 0x6d9d6122, 0xfde5380c, 0xa4beea44, 0x4bdecfa9, 0xf6bb4b60, 0xbebfbc70,
   0x289b7ec6, 0xeaa127fa, 0xd4ef3085, 0x04881d05, 0xd9d4d039, 0xe6db99e5, 0x1fa27cf8, 0xc4ac5665,
   0xf4292244, 0x432aff97, 0xab9423a7, 0xfc93a039, 0x655b59c3, 0x8f0ccc92, 0xffeff47d, 0x85845dd1,
   0x6fa87e4f, 0xfe2ce6e0, 0xa3014314, 0x4e0811a1, 0xf7537e82, 0xbd3af235, 0x2ad7d2bb, 0xeb86d391]

/-- Rotate a 32-bit word left by `s` bits. -/
def rotl32 (x s : Nat) : Nat :=
  ((x <<< s) ||| (x >>> (32 - s))) % 2 ^ 32

/-- Complement of a 32-bit word. -/
def not32 (x : Nat) : Nat := x ^^^ 0xffffffff

/-- Little-endian bytes of a word, `n` of them. -/
def le_bytes : Nat → Nat → List Nat
  | 0, _ => []
  | n + 1, x => x % 256 :: le_bytes n (x / 256)

/-- The little-endian 32-bit word at word offset `g` of a 64-byte chunk. -/
def md5_word (chunk : List Nat) (g : Nat) : Nat :=
  chunk.getD (4 * g) 0 + chunk.getD (4 * g + 1) 0 * 2 ^ 8
    + chunk.getD (4 * g + 2) 0 * 2 ^ 16 + chunk.getD (4 * g + 3) 0 * 2 ^ 24

/-- MD5 chaining state: the four 32-bit registers A, B, C, D. -/
structure MD5_CTX where
  A : Nat
  B : Nat
  C : Nat
  D : Nat
deriving DecidableEq

/-- One of the 64 operations of the MD5 compression function. -/
def md5_round (chunk : List Nat) (st : MD5_CTX) (i : Nat) : MD5_CTX :=
  let F :=
    if i < 16 then (st.B &&& st.C) ||| (not32 st.B &&& st.D)
    else if i < 32 then (st.D &&& st.B) ||| (not32 st.D &&& st.C)
    else if i < 48 then st.B ^^^ st.C ^^^ st.D
    else st.C ^^^ (st.B ||| not32 st.D)
  let g :=
    if i < 16 then i
    else if i < 32 then (5 * i + 1) % 16
    else if i < 48 then (3 * i + 5) % 16
    else (7 * i) % 16
  let F1 := (F + st.A + md5_K.getD i 0 + md5_word chunk g) % 2 ^ 32
  { A := st.D, D := st.C, C := st.B, B := (st.B + rotl32 F1 (md5_shift.getD i 0)) % 2 ^ 32 }

/-- The MD5 compression function on one 64-byte chunk. -/
def md5_block (st : MD5_CTX) (chunk : List Nat) : MD5_CTX :=
  let r := (List.range 64).foldl (md5_round chunk) st
  { A := (st.A + r.A) % 2 ^ 32, B := (st.B + r.B) % 2 ^ 32,
    C := (st.C + r.C) % 2 ^ 32, D := (st.D + r.D) % 2 ^ 32 }

/-- MD5 padding: a 0x80 byte, zeros up to 56 mod 64, then the bit length in 8 bytes. -/
def md5_pad (msg : List Nat) : List Nat :=
  msg ++ [0x80] ++ List.replicate ((119 - msg.length % 64) % 64) 0
    ++ le_bytes 8 ((8 * msg.length) % 2 ^ 64)

/-- `MD5(d, n, md)` of OpenSSL: the 16-byte MD5 digest (RFC 1321) of the first `n` bytes
of `d`. -/
def MD5 (d : List Nat) (n : Nat) : List Nat :=
  let padded := md5_pad (d.take n)
  let chunks := (List.range (padded.length / 64)).map (fun k => (padded.drop (64 * k)).take 64)
  let r := chunks.foldl md5_block ⟨0x67452301, 0xefcdab89, 0x98badcfe, 0x10325476⟩
  le_bytes 4 r.A ++ le_bytes 4 r.B ++ le_bytes 4 r.C ++ le_bytes 4 r.D

/-- `MD5_DIGEST_LENGTH` of openssl/md5.h. -/
def MD5_DIGEST_LENGTH : Nat := 16

/-- The element type of `m_queue`: `pair<int, unique_ptr<uint8_t[]>>`, block number and block
data; `none` is the null pointer. -/
abbrev Item := Int × Option (List Nat)

/-- The `std::ifstream input` of `main` once it is open: the bytes not yet extracted and the
failbit (`read` sets eofbit and failbit together, and `operator bool` tests failbit). -/
structure ifstream where
  unread : List Nat
  failbit : Bool
deriving DecidableEq

/-- The stream as a condition, `while (input)`: true while no read has failed. -/
def ifstream.ok (s : ifstream) : Bool := !s.failbit

/-- A freshly opened stream over the bytes of a file. -/
def ifstream.open_file (bytes : List Nat) : ifstream := { unread := bytes, failbit := false }

/-- The call `input.read(buffer.get(), n)` on a zero-initialised buffer of `n` bytes: the
stream after the call and the buffer. Fewer than `n` bytes available sets the failbit, the
bytes that were there are stored, the rest of the buffer keeps its zeros. -/
def ifstream.read (s : ifstream) (n : Nat) : ifstream × List Nat :=
  if s.failbit then (s, List.replicate n 0)
  else
    let got := s.unread.take n
    ({ unread := s.unread.drop n, failbit := decide (got.length ≠ n) },
      got ++ List.replicate (n - got.length) 0)

/-- The variables of the read loop of `main` (lines 171-179): the stream, `block_number`, and
the arguments of the `calc.add_block` calls made so far, oldest first. -/
structure ReadLoop where
  input : ifstream
  block_number : Int
  added : List Item
deriving DecidableEq

/-- The loop variables when the loop is entered. -/
def ReadLoop.start (bytes : List Nat) : ReadLoop :=
  { input := ifstream.open_file bytes, block_number := 0, added := [] }

/-- One pass through the body of `while (input)`: allocate, read, `add_block`. -/
def loop_body (block_size : Nat) (st : ReadLoop) : ReadLoop :=
  let r := st.input.read block_size
  { input := r.1, block_number := st.block_number + 1,
    added := st.added ++ [(st.block_number, some r.2)] }

/-- The loop `while (input) { ... }` of `main`, run for at most `fuel` passes; `none` when the
condition still holds after `fuel` passes. -/
def read_loop (block_size : Nat) : Nat → ReadLoop → Option ReadLoop
  | 0, st => if st.input.ok then none else some st
  | fuel + 1, st =>
    if st.input.ok then read_loop block_size fuel (loop_body block_size st) else some st

/-- The loop variables after `k` passes through the body. -/
def loop_after (block_size : Nat) (st : ReadLoop) : Nat → ReadLoop
  | 0 => st
  | k + 1 => loop_body block_size (loop_after block_size st k)

/-- The `i`-th block of a file cut into `block_size`-byte pieces, filled up with zeros. -/
def block_at (bytes : List Nat) (block_size i : Nat) : List Nat :=
  let got := (bytes.drop (i * block_size)).take block_size
  got ++ List.replicate (block_size - got.length) 0



/-- A thread of `m_threads` executing `hash_calc::run`, seen between the sections it executes
while it owns `m_mutex`. -/
inductive Worker where
  /-- About to take `m_mutex`: freshly started (line 34) or woken inside `m_cv.wait`. -/
  | runnable
  /-- Blocked inside `m_cv.wait` (line 64); only a notification or a spurious wakeup moves it. -/
  | waiting
  /-- Between `lock.unlock()` and `lock.lock()` (lines 56-59), owning the popped block. -/
  | hashing (block_number : Int) (block : List Nat)
  /-- Left the loop through `break` (line 44): it saw the exit condition. -/
  | exited
  /-- Left through the `runtime_error` of line 48, which the `catch` of line 67 logs. -/
  | failed (block_number : Int)
deriving DecidableEq

/-- Where the thread that owns the `hash_calc` object stands. -/
inductive Caller where
  /-- Outside any member function: it may call `add_block` or `finish`. -/
  | feeding
  /-- Inside `add_block` (`fin = false`) or `finish` (`fin = true`), the item is pushed and the
  lock released, `m_cv.notify_all()` is next. -/
  | notifying (fin : Bool)
  /-- Inside `join()`, called by `finish`. -/
  | joining
deriving DecidableEq

/-- The members of `class hash_calc`, where the owning thread stands, and, for stating
properties, the log `pushed` of every item that was ever appended to `m_queue`. -/
structure hash_calc where
  m_threads : List Worker
  m_queue : List Item
  m_block_size : Nat
  m_digests : List (Int × List Nat)
  caller : Caller
  pushed : List Item
deriving DecidableEq

/-- The constructor `hash_calc(block_size, thread_count)`. -/
def hash_calc.new (block_size : Nat) (thread_count : Nat) : hash_calc :=
  { m_threads := List.replicate (if thread_count < 1 then 1 else thread_count) Worker.runnable,
    m_queue := [],
    m_block_size := block_size,
    m_digests := [],
    caller := Caller.feeding,
    pushed := [] }

/-- The call `m_digests.emplace(k, v)` on a `std::map<int, ...>`, kept as the list of its
entries in ascending key order: a key that is present keeps its old value. -/
def map_emplace (k : Int) (v : List Nat) : List (Int × List Nat) → List (Int × List Nat)
  | [] => [(k, v)]
  | e :: m =>
    if k < e.1 then (k, v) :: e :: m
    else if k = e.1 then e :: m
    else e :: map_emplace k v m

/-- The exit condition queued by `finish`: `m_queue.emplace(-1, nullptr)`. -/
def exit_condition : Item := (-1, none)

/-- The call `m_cv.notify_all()`: every blocked thread becomes runnable. -/
def notify_all (ts : List Worker) : List Worker :=
  ts.map (fun w => if w = Worker.waiting then Worker.runnable else w)

/-- The call `m_cv.notify_one()` of line 43. `wake` names the thread the condition variable
unblocks; it has to be blocked, and `none` is possible only when no thread is blocked. -/
def notify_one (ts : List Worker) (wake : Option Nat) : Option (List Worker) :=
  match wake with
  | none => if Worker.waiting ∈ ts then none else some ts
  | some j => if ts[j]? = some Worker.waiting then some (ts.set j Worker.runnable) else none

/-- The section of `run` that thread `i` executes while it owns `m_mutex`, from the test of
line 38 on (reached from line 36, or from line 64 when the predicate holds), with the map as
the thread found or left it: an empty queue blocks the thread in `m_cv.wait`; the exit
condition at the front makes it notify and leave; an empty block makes it throw; any other
front item is moved out and popped, and the thread unlocks to hash it. -/
def hash_calc.section_of (c : hash_calc) (i : Nat) (wake : Option Nat)
    (digests : List (Int × List Nat)) : Option hash_calc :=
  match c.m_queue with
  | [] =>
    if wake = none then
      some { c with m_digests := digests, m_threads := c.m_threads.set i Worker.waiting }
    else none
  | (n, none) :: _ =>
    if n = -1 then
      (notify_one (c.m_threads.set i Worker.exited) wake).map
        (fun ts => { c with m_digests := digests, m_threads := ts })
    else if wake = none then
      some { c with m_digests := digests, m_threads := c.m_threads.set i (Worker.failed n) }
    else none
  | (n, some block) :: rest =>
    if wake = none then
      some { c with m_digests := digests, m_queue := rest,
                    m_threads := c.m_threads.set i (Worker.hashing n block) }
    else none

/-- What a scheduler can let happen next. -/
inductive Action where
  /-- The owning thread calls `add_block(pair)` and gets as far as releasing the lock. -/
  | add_block (pair : Item)
  /-- The owning thread calls `finish()` and gets as far as releasing the lock. -/
  | finish
  /-- The owning thread executes the pending `m_cv.notify_all()`. -/
  | notify_all
  /-- Thread `i` takes `m_mutex` and executes up to the point where it gives it up;
  `wake` is the thread unblocked by its `notify_one`, if it executes one. -/
  | run (i : Nat) (wake : Option Nat)
  /-- Thread `i` wakes up inside `m_cv.wait` without a notification. -/
  | spurious (i : Nat)
deriving DecidableEq

/-- One scheduling step; `none` when the action is not possible in this state. -/
def hash_calc.step (c : hash_calc) : Action → Option hash_calc
  | Action.add_block pair =>
    if c.caller = Caller.feeding then
      some { c with m_queue := c.m_queue ++ [pair], pushed := c.pushed ++ [pair],
                    caller := Caller.notifying false }
    else none
  | Action.finish =>
    if c.caller = Caller.feeding then
      some { c with m_queue := c.m_queue ++ [exit_condition],
                    pushed := c.pushed ++ [exit_condition],
                    caller := Caller.notifying true }
    else none
  | Action.notify_all =>
    match c.caller with
    | Caller.notifying fin =>
      some { c with m_threads := notify_all c.m_threads,
                    caller := if fin then Caller.joining else Caller.feeding }
    | _ => none
  | Action.run i wake =>
    match c.m_threads[i]? with
    | some Worker.runnable => c.section_of i wake c.m_digests
    | some (Worker.hashing block_number block) =>
      c.section_of i wake (map_emplace block_number (MD5 block c.m_block_size) c.m_digests)
    | _ => none
  | Action.spurious i =>
    match c.m_threads[i]? with
    | some Worker.waiting => some { c with m_threads := c.m_threads.set i Worker.runnable }
    | _ => none

/-- A schedule: the actions taken one after the other; `none` when one is not possible. -/
def hash_calc.exec (c : hash_calc) : List Action → Option hash_calc
  | [] => some c
  | a :: rest => (c.step a).bind (fun c1 => c1.exec rest)

/-- The states the object can be in: those some schedule leads to from the constructor. -/
def Reachable (block_size thread_count : Nat) (c : hash_calc) : Prop :=
  ∃ schedule, (hash_calc.new block_size thread_count).exec schedule = some c

/-- A thread that has returned from `run`. -/
def Worker.finished : Worker → Bool
  | Worker.exited => true
  | Worker.failed _ => true
  | _ => false

/-- The call `join()` inside `finish` has returned: every thread has returned from `run`. -/
def hash_calc.joined (c : hash_calc) : Bool :=
  decide (c.caller = Caller.joining) && c.m_threads.all Worker.finished

/-- Lines 183-188 of `main`: the bytes handed to `output.write`, `MD5_DIGEST_LENGTH` bytes of
each digest of `calc.result()` in the order of the map. -/
def hash_calc.output (c : hash_calc) : List Nat :=
  c.m_digests.flatMap (fun e => e.2.take MD5_DIGEST_LENGTH)

/-- The exceptions that reach the `catch` clauses of `main`. -/
inductive Exception where
  /-- The class `std::invalid_argument`: thrown by the argument scan and by `stoi`. -/
  | invalid_argument
  /-- The class `std::out_of_range`, thrown by `stoi`. -/
  | out_of_range
  /-- The class `std::runtime_error`: thrown when a file does not open. -/
  | runtime_error
deriving DecidableEq

/-- The variables the argument scan of `main` fills in. -/
structure Args where
  input_name : String
  output_name : String
  block_size : Nat
deriving DecidableEq

/-- The variables as declared at lines 125-127. -/
def Args.initial : Args := { input_name := "", output_name := "", block_size := 0x100000 }

/-- The white space `stoi` skips, `isspace` in the C locale. -/
def isspace (ch : Char) : Bool :=
  ch.toNat = 32 || (9 ≤ ch.toNat && ch.toNat ≤ 13)

/-- The decimal digits, `isdigit`. -/
def isdigit (ch : Char) : Bool :=
  48 ≤ ch.toNat && ch.toNat ≤ 57

/-- The call `std::stoi(str)`: white space, an optional sign, then decimal digits as far as
they go; `invalid_argument` without a digit, `out_of_range` outside `int`. -/
def stoi (str : String) : Except Exception Int :=
  let s := str.toList.dropWhile isspace
  let negative := s.head?.map Char.toNat = some 45
  let signed := s.head?.map Char.toNat = some 45 ∨ s.head?.map Char.toNat = some 43
  let digits := (if signed then s.drop 1 else s).takeWhile isdigit
  if digits = [] then Except.error Exception.invalid_argument
  else
    let magnitude : Nat := digits.foldl (fun acc ch => 10 * acc + (ch.toNat - 48)) 0
    let value : Int := if negative then - (magnitude : Int) else (magnitude : Int)
    if value < -(2 ^ 31) ∨ 2 ^ 31 - 1 < value then Except.error Exception.out_of_range
    else Except.ok value

/-- The conversion of an `int` to `size_t` (64 bits), as in `block_size = stoi(...)`. -/
def to_size_t (v : Int) : Nat := (v % 2 ^ 64).toNat

/-- The body of the loop `for (int i = 0; i < argc; ++i)` of lines 129-159. -/
def args_body (argv : List String) (i : Nat) (a : Args) : Except Exception Args :=
  if i = 0 then Except.ok a
  else if i % 2 = 1 then
    let par := argv.getD i ""
    if "-i" = par then
      if i + 1 ≥ argv.length then Except.error Exception.invalid_argument
      else Except.ok { a with input_name := argv.getD (i + 1) "" }
    else if "-o" = par then
      if i + 1 ≥ argv.length then Except.error Exception.invalid_argument
      else Except.ok { a with output_name := argv.getD (i + 1) "" }
    else if "-bs" = par then
      if i + 1 ≥ argv.length then Except.error Exception.invalid_argument
      else (stoi (argv.getD (i + 1) "")).map (fun v => { a with block_size := to_size_t v })
    else Except.error Exception.invalid_argument
  else Except.ok a

/-- The loop of lines 129-159 from index `i` on, for `k` more passes. -/
def args_loop (argv : List String) : Nat → Nat → Args → Except Exception Args
  | 0, _, a => Except.ok a
  | k + 1, i, a => (args_body argv i a).bind (fun a1 => args_loop argv k (i + 1) a1)

/-- Lines 121-159 of `main`: the test of `argc` and the scan of the arguments. -/
def parse_args (argv : List String) : Except Exception Args :=
  if argv.length < 2 then Except.error Exception.invalid_argument
  else args_loop argv argv.length 0 Args.initial

/-- The files `main` meets: for a name, the bytes an `ifstream` opened on it delivers, `none`
when it does not open; and whether an `ofstream` on the name opens. -/
structure Files where
  read : String → Option (List Nat)
  write : String → Bool

/-- Lines 121-168 of `main`, all that comes before the `hash_calc` is constructed: the bytes
of the input and the block size, or the exception thrown. -/
def main_setup (fs : Files) (argv : List String) : Except Exception (List Nat × Nat) :=
  (parse_args argv).bind (fun a =>
    match fs.read a.input_name with
    | none => Except.error Exception.runtime_error
    | some bytes =>
      if fs.write a.output_name then Except.ok (bytes, a.block_size)
      else Except.error Exception.runtime_error)

/-- The two `catch` clauses of `main` (lines 190-200): 1 for `std::invalid_argument`, 2 for
any other `std::exception`. -/
def exit_status : Exception → Int
  | Exception.invalid_argument => 1
  | _ => 2

/-- What a run of `main` that returns leaves behind: the value returned, the `hash_calc`
object if one was constructed (as it was when `finish()` returned), and the bytes handed
to `output.write`, if it was called. -/
structure MainRun where
  result : Int
  engine : Option hash_calc
  written : Option (List Nat)

/-- The largest number of bytes an array can have, `PTRDIFF_MAX` with 64-bit pointers. -/
def PTRDIFF_MAX : Nat := 2 ^ 63 - 1

/-- Whether `make_unique<uint8_t[]>(n)` of line 175 can succeed: for an array of more than
`PTRDIFF_MAX` bytes, as every negative `-bs` value gives after its conversion to `size_t`,
it throws `bad_alloc` (or `bad_array_new_length`, derived from it). -/
def allocatable (n : Nat) : Bool := decide (n ≤ PTRDIFF_MAX)

/-- The runs of `main` that return, on a machine with `hardware_concurrency` hardware
threads. An exception of the set-up is caught and decides the value returned. Otherwise, if
a block can be allocated, the read loop feeds the object while the threads run, `finish()`
waits for them, the digests are written and 0 is returned. If a block cannot be allocated
`main` does not return, see `main_terminates`. The creation of the threads and every
allocation other than that of a block too large are taken to succeed. -/
def main_returns (fs : Files) (hardware_concurrency : Nat) (argv : List String)
    (r : MainRun) : Prop :=
  match main_setup fs argv with
  | Except.error e => r = { result := exit_status e, engine := none, written := none }
  | Except.ok (bytes, block_size) =>
    allocatable block_size = true ∧
    ∃ (fuel : Nat) (st : ReadLoop) (c : hash_calc),
      read_loop block_size fuel (ReadLoop.start bytes) = some st ∧
      Reachable block_size hardware_concurrency c ∧
      c.pushed = st.added ++ [exit_condition] ∧
      c.joined = true ∧
      r = { result := 0, engine := some c, written := some c.output }

/-- The runs of `main` that end in `std::terminate`: the set-up succeeds, the object is
constructed and its threads run, and `make_unique` throws in the first pass of the read
loop; the exception leaves the `try` block through the destructor of `calc`, which destroys
threads that are still joinable. -/
def main_terminates (fs : Files) (argv : List String) : Prop :=
  match main_setup fs argv with
  | Except.error _ => False
  | Except.ok (_, block_size) => allocatable block_size = false

/-- A file system on which no file opens. -/
def no_files : Files := { read := fun _ => none, write := fun _ => false }

/-- A file system on which every file opens, for reading with the bytes "abc". -/
def abc_files : Files := { read := fun _ => some [0x61, 0x62, 0x63], write := fun _ => true }

/-- The blocks the loop has passed to `add_block` after `k` passes over a file that still has
data: the first `k` pieces of the file. -/
def blocks_upto (bytes : List Nat) (bs k : Nat) : List Item :=
  (List.range k).map (fun (i : Nat) => ((i : Int), some (block_at bytes bs i)))

/-- The block a thread owns while it hashes, as the queue item it was. -/
def Worker.item : Worker → Option Item
  | Worker.hashing n b => some (n, some b)
  | _ => none

/-- The blocks that are out of the queue and in the hands of a thread. -/
def held (ts : List Worker) : List Item := ts.filterMap Worker.item

/-- Facts about a state of the object that every scheduling step keeps. -/
structure Inv (c : hash_calc) : Prop where
  /-- The items ever pushed are, in order, the ones popped so far and then the queue; the
  popped ones are the blocks that were hashed and stored (`done`) and the blocks threads own;
  the map has an entry under the number of every block of `done` and nothing else, each
  entry the digest of a block of `done` with that number. -/
  conserve : ∃ (popped : List Item) (done : List (Int × List Nat)),
    c.pushed = popped ++ c.m_queue ∧
    popped.Perm (done.map (fun p => (p.1, some p.2)) ++ held c.m_threads) ∧
    (∀ p ∈ done, ∃ v, (p.1, v) ∈ c.m_digests) ∧
    (∀ e ∈ c.m_digests, ∃ b, (e.1, b) ∈ done ∧ e.2 = MD5 b c.m_block_size)
  /-- The map is in ascending key order without a repeated key. -/
  sorted : c.m_digests.Pairwise (fun a b => a.1 < b.1)
  /-- No lost wakeup: a thread is blocked while the queue has an item only if the
  `notify_all` for a push is still to come. -/
  wakeup : c.m_queue ≠ [] → (∀ fin, c.caller ≠ Caller.notifying fin) →
    Worker.waiting ∉ c.m_threads
  /-- Once `finish` has pushed the exit condition it is the last item of the queue. -/
  token : c.caller = Caller.notifying true ∨ c.caller = Caller.joining →
    c.m_queue.getLast? = some exit_condition
  /-- A thread has left through `break` only with the exit condition at the front. -/
  exited : Worker.exited ∈ c.m_threads → c.m_queue.head? = some exit_condition
  /-- A thread has thrown on block `n` only with that empty block at the front. -/
  failed : ∀ n, Worker.failed n ∈ c.m_threads → n ≠ -1 ∧ c.m_queue.head? = some (n, none)

/-- The first half of a `run` step of a hashing thread: with the lock taken again, the digest
is put into the map (line 61); the thread goes on to line 64 with the lock. -/
def hash_calc.deposit (c : hash_calc) (i : Nat) (n : Int) (b : List Nat) : hash_calc :=
  { c with m_digests := map_emplace n (MD5 b c.m_block_size) c.m_digests,
           m_threads := c.m_threads.set i Worker.runnable }

/-- The items at the head of the push log that carry data: the blocks the threads can get
at before an item without data stops them. -/
def served (pushed : List Item) : List Item := pushed.takeWhile (fun it => it.2.isSome)

/-- The map `main` finds after `finish()`: under each block number the digest of the block. -/
def digests_of (bytes : List Nat) (bs n : Nat) : List (Int × List Nat) :=
  (List.range n).map (fun (i : Nat) => ((i : Int), MD5 (block_at bytes bs i) bs))

/-- How far a thread is from having returned from `run`, in steps it takes by itself. -/
def Worker.weight : Worker → Nat
  | Worker.waiting => 2
  | Worker.runnable => 1
  | Worker.hashing _ _ => 1
  | Worker.exited => 0
  | Worker.failed _ => 0

/-- A bound on the number of steps left once the exit condition is queued: three for every
queued item, the distance of every thread, one for a pending `notify_all`. -/
def hash_calc.budget (c : hash_calc) : Nat :=
  3 * c.m_queue.length + (c.m_threads.map Worker.weight).sum +
    (match c.caller with
     | Caller.notifying _ => 1
     | _ => 0)

/-- The exit condition is queued: the owning thread is inside `finish`. -/
def hash_calc.finishing (c : hash_calc) : Prop :=
  c.caller = Caller.notifying true ∨ c.caller = Caller.joining

/-- The blocks of a sequence of items carry pairwise distinct block numbers. -/
def distinct_numbers (items : List Item) : Prop :=
  ((items.filter (fun it => it.2.isSome)).map Prod.fst).Nodup

/-- Two one-byte blocks under the same block number 0. -/
def twice_items : List Item := [(0, some [0]), (0, some [1])]

/-- A schedule for `twice_items` with two threads: thread 0 takes the first block, thread 1
takes the second and stores its digest first. -/
def twice_schedule_two : List Action :=
  [Action.add_block (0, some [0]), Action.notify_all, Action.run 0 none,
   Action.add_block (0, some [1]), Action.notify_all, Action.run 1 none, Action.run 1 none,
   Action.finish, Action.notify_all, Action.run 0 none, Action.run 1 none]

/-- The state `twice_schedule_two` ends in. -/
def twice_state_two : hash_calc :=
  { m_threads := [Worker.exited, Worker.exited],
    m_queue := [exit_condition],
    m_block_size := 1,
    m_digests := [(0, MD5 [1] 1)],
    caller := Caller.joining,
    pushed := twice_items ++ [exit_condition] }

/-- A schedule for `twice_items` with a single thread. -/
def twice_schedule_one : List Action :=
  [Action.add_block (0, some [0]), Action.notify_all, Action.run 0 none,
   Action.add_block (0, some [1]), Action.notify_all, Action.run 0 none, Action.run 0 none,
   Action.finish, Action.notify_all, Action.run 0 none]

/-- The state `twice_schedule_one` ends in. -/
def twice_state_one : hash_calc :=
  { m_threads := [Worker.exited],
    m_queue := [exit_condition],
    m_block_size := 1,
    m_digests := [(0, MD5 [0] 1)],
    caller := Caller.joining,
    pushed := twice_items ++ [exit_condition] }

/-- Two one-byte blocks numbered 0 and 1. -/
def pair_items : List Item := [(0, some [0]), (1, some [1])]

/-- A schedule for `pair_items` with two threads; block 1 is stored before block 0. -/
def pair_schedule_two : List Action :=
  [Action.add_block (0, some [0]), Action.notify_all, Action.run 0 none,
   Action.add_block (1, some [1]), Action.notify_all, Action.run 1 none, Action.run 1 none,
   Action.finish, Action.notify_all, Action.run 0 none, Action.run 1 none]

/-- The state `pair_schedule_two` ends in. -/
def pair_state_two : hash_calc :=
  { m_threads := [Worker.exited, Worker.exited],
    m_queue := [exit_condition],
    m_block_size := 1,
    m_digests := [(0, MD5 [0] 1), (1, MD5 [1] 1)],
    caller := Caller.joining,
    pushed := pair_items ++ [exit_condition] }

/-- A schedule for `pair_items` with a single thread. -/
def pair_schedule_one : List Action :=
  [Action.add_block (0, some [0]), Action.notify_all, Action.run 0 none,
   Action.add_block (1, some [1]), Action.notify_all, Action.run 0 none, Action.run 0 none,
   Action.finish, Action.notify_all, Action.run 0 none]

/-- The state `pair_schedule_one` ends in. -/
def pair_state_one : hash_calc :=
  { m_threads := [Worker.exited],
    m_queue := [exit_condition],
    m_block_size := 1,
    m_digests := [(0, MD5 [0] 1), (1, MD5 [1] 1)],
    caller := Caller.joining,
    pushed := pair_items ++ [exit_condition] }

/-- A schedule with two threads in which block 0, then an item numbered 7 without data, then
block 1 are added before `finish()`. -/
def stopped_schedule : List Action :=
  [Action.add_block (0, some [0]), Action.notify_all, Action.run 0 none,
   Action.add_block (7, none), Action.notify_all,
   Action.add_block (1, some [1]), Action.notify_all,
   Action.run 1 none, Action.finish, Action.notify_all, Action.run 0 none]

/-- The state `stopped_schedule` ends in. -/
def stopped_state : hash_calc :=
  { m_threads := [Worker.failed 7, Worker.failed 7],
    m_queue := [(7, none), (1, some [1]), exit_condition],
    m_block_size := 1,
    m_digests := [(0, MD5 [0] 1)],
    caller := Caller.joining,
    pushed := [(0, some [0]), (7, none), (1, some [1]), exit_condition] }

/-- The three bytes "abc" in a 16-byte block, as the read loop builds it. -/
def abc_block : List Nat := [0x61, 0x62, 0x63, 0, 0, 0, 0, 0, 0, 0, 0, 0, 0, 0, 0, 0]

/-- A schedule of a run of `main` on the three bytes "abc" with 16-byte blocks and two
threads. -/
def abc_schedule : List Action :=
  [Action.add_block (0, some abc_block), Action.notify_all, Action.finish, Action.notify_all,
   Action.run 0 none, Action.run 1 none, Action.run 0 none]

/-- The state `abc_schedule` ends in. -/
def abc_state : hash_calc :=
  { m_threads := [Worker.exited, Worker.exited],
    m_queue := [exit_condition],
    m_block_size := 16,
    m_digests := [(0, MD5 abc_block 16)],
    caller := Caller.joining,
    pushed := [(0, some abc_block), exit_condition] }

/-- The loop variables when the read loop has ended on the three bytes "abc". -/
def abc_loop : ReadLoop :=
  { input := { unread := [], failbit := true }, block_number := 1,
    added := [(0, some abc_block)] }

/-- How many times `x` occurs in `l`. -/
def copies {α : Type} [DecidableEq α] (x : α) (l : List α) : Nat :=
  l.countP (fun y => decide (y = x))

/-- A command line that names an input and an output file. -/
def plain_argv : List String := ["md5calc", "-i", "in", "-o", "out"]

/-- The run of `main` that returns 2 without having constructed the object. -/
def failed_open_run : MainRun := { result := 2, engine := none, written := none }

/-- The run of `main` that returns 1 without having constructed the object. -/
def usage_run : MainRun := { result := 1, engine := none, written := none }

/-! ## The read loop of `main` -/

theorem loop_after_succ_comm (bs : Nat) (k : Nat) (st : ReadLoop) :
    loop_after bs st (k + 1) = loop_after bs (loop_body bs st) k := by
  induction k with
  | zero => rfl
  | succ k ih =>
    show loop_body bs (loop_after bs st (k + 1)) = loop_body bs (loop_after bs (loop_body bs st) k)
    rw [ih]

theorem read_loop_of_after (bs : Nat) (k : Nat) :
    ∀ (fuel : Nat) (st : ReadLoop), k ≤ fuel →
      (∀ j, j < k → (loop_after bs st j).input.ok = true) →
      (loop_after bs st k).input.ok = false →
      read_loop bs fuel st = some (loop_after bs st k) := by
  induction k with
  | zero =>
    intro fuel st _ _ hk
    have hk0 : st.input.ok = false := hk
    cases fuel <;> simp [read_loop, hk0, loop_after]
  | succ k ih =>
    intro fuel st hf hlt hk
    have h0 : st.input.ok = true := hlt 0 (Nat.succ_pos k)
    cases fuel with
    | zero => omega
    | succ fuel =>
      simp only [read_loop, h0, if_true]
      rw [loop_after_succ_comm]
      apply ih fuel (loop_body bs st) (by omega)
      · intro j hj
        rw [← loop_after_succ_comm]
        exact hlt (j + 1) (by omega)
      · rw [← loop_after_succ_comm]
        exact hk

theorem read_loop_none_of_after (bs : Nat) :
    ∀ (fuel : Nat) (st : ReadLoop),
      (∀ j, j ≤ fuel → (loop_after bs st j).input.ok = true) →
      read_loop bs fuel st = none := by
  intro fuel
  induction fuel with
  | zero =>
    intro st h
    have h0 : st.input.ok = true := h 0 (Nat.le_refl 0)
    simp [read_loop, h0]
  | succ fuel ih =>
    intro st h
    have h0 : st.input.ok = true := h 0 (Nat.zero_le _)
    simp only [read_loop, h0, if_true]
    apply ih
    intro j hj
    rw [← loop_after_succ_comm]
    exact h (j + 1) (by omega)

theorem loop_after_full (bytes : List Nat) (bs : Nat) (k : Nat) (hk : k * bs ≤ bytes.length) :
    loop_after bs (ReadLoop.start bytes) k =
      { input := { unread := bytes.drop (k * bs), failbit := false },
        block_number := (k : Int),
        added := blocks_upto bytes bs k } := by
  induction k with
  | zero => simp [loop_after, ReadLoop.start, ifstream.open_file, blocks_upto]
  | succ k ih =>
    have hk1 : k * bs ≤ bytes.length := by
      have : k * bs ≤ (k + 1) * bs := Nat.mul_le_mul_right bs (Nat.le_succ k)
      omega
    have hlen : ((bytes.drop (k * bs)).take bs).length = bs := by
      rw [List.length_take, List.length_drop]
      have : (k + 1) * bs = k * bs + bs := by ring
      omega
    show loop_body bs (loop_after bs (ReadLoop.start bytes) k) = _
    rw [ih hk1]
    simp only [loop_body, ifstream.read, Bool.false_eq_true, if_false, hlen]
    have hd : List.drop bs (List.drop (k * bs) bytes) = List.drop ((k + 1) * bs) bytes := by
      rw [List.drop_drop]
      congr 1
      ring
    simp only [hd, ne_eq, not_true_eq_false, decide_False, Nat.sub_self, List.replicate_zero,
      List.append_nil, blocks_upto, List.range_succ, List.map_append, List.map_cons, List.map_nil,
      block_at, hlen, Nat.cast_succ]

theorem loop_after_last (bytes : List Nat) (bs : Nat) (hbs : 0 < bs) :
    loop_after bs (ReadLoop.start bytes) (bytes.length / bs + 1) =
      { input := { unread := [], failbit := true },
        block_number := ((bytes.length / bs + 1 : Nat) : Int),
        added := blocks_upto bytes bs (bytes.length / bs + 1) } := by
  have hq : bytes.length / bs * bs ≤ bytes.length := Nat.div_mul_le_self _ _
  have hr : bytes.length - bytes.length / bs * bs < bs := by
    have := Nat.mod_lt bytes.length hbs
    have h2 := Nat.div_add_mod bytes.length bs
    have h3 : bs * (bytes.length / bs) = bytes.length / bs * bs := Nat.mul_comm _ _
    omega
  have hlen : ((bytes.drop (bytes.length / bs * bs)).take bs).length
      = bytes.length - bytes.length / bs * bs := by
    rw [List.length_take, List.length_drop]
    omega
  show loop_body bs (loop_after bs (ReadLoop.start bytes) (bytes.length / bs)) = _
  rw [loop_after_full bytes bs _ hq]
  simp only [loop_body, ifstream.read, Bool.false_eq_true, if_false, hlen]
  have hd : List.drop bs (List.drop (bytes.length / bs * bs) bytes) = [] := by
    rw [List.drop_drop]
    apply List.drop_eq_nil_of_le
    omega
  have hne : ¬ (bytes.length - bytes.length / bs * bs = bs) := by omega
  simp only [hd, ne_eq, hne, not_false_eq_true, decide_True, blocks_upto, List.range_succ,
    List.map_append, List.map_cons, List.map_nil, block_at, hlen, Nat.cast_succ]

theorem loop_body_failed (bs : Nat) (st : ReadLoop) (h : st.input.ok = false) :
    (loop_body bs st).input.ok = false := by
  have hf : st.input.failbit = true := by simpa [ifstream.ok] using h
  simp [loop_body, ifstream.read, hf, ifstream.ok]

theorem loop_after_failed (bs : Nat) (st : ReadLoop) (k : Nat)
    (h : (loop_after bs st k).input.ok = false) (j : Nat) :
    (loop_after bs st (k + j)).input.ok = false := by
  induction j with
  | zero => exact h
  | succ j ih => exact loop_body_failed bs _ ih

theorem loop_after_ok_iff (bytes : List Nat) (bs : Nat) (hbs : 0 < bs) (k : Nat) :
    (loop_after bs (ReadLoop.start bytes) k).input.ok = true ↔ k ≤ bytes.length / bs := by
  constructor
  · intro h
    by_contra hc
    have hk : k = (bytes.length / bs + 1) + (k - (bytes.length / bs + 1)) := by omega
    have hf := loop_after_failed bs (ReadLoop.start bytes) (bytes.length / bs + 1)
      (by rw [loop_after_last bytes bs hbs]; rfl) (k - (bytes.length / bs + 1))
    rw [← hk] at hf
    rw [hf] at h
    exact Bool.noConfusion h
  · intro h
    have hq : k * bs ≤ bytes.length :=
      Nat.le_trans (Nat.mul_le_mul_right bs h) (Nat.div_mul_le_self _ _)
    rw [loop_after_full bytes bs k hq]
    rfl

theorem read_loop_result (bytes : List Nat) (bs : Nat) (hbs : 0 < bs) (fuel : Nat)
    (hf : bytes.length / bs + 1 ≤ fuel) :
    read_loop bs fuel (ReadLoop.start bytes) =
      some { input := { unread := [], failbit := true },
             block_number := ((bytes.length / bs + 1 : Nat) : Int),
             added := blocks_upto bytes bs (bytes.length / bs + 1) } := by
  rw [← loop_after_last bytes bs hbs]
  apply read_loop_of_after bs _ fuel _ hf
  · intro j hj
    exact (loop_after_ok_iff bytes bs hbs j).2 (by omega)
  · rw [loop_after_last bytes bs hbs]
    rfl

theorem read_loop_short (bytes : List Nat) (bs : Nat) (hbs : 0 < bs) (fuel : Nat)
    (hf : fuel ≤ bytes.length / bs) :
    read_loop bs fuel (ReadLoop.start bytes) = none := by
  apply read_loop_none_of_after
  intro j hj
  exact (loop_after_ok_iff bytes bs hbs j).2 (by omega)

theorem block_at_length (bytes : List Nat) (bs i : Nat) : (block_at bytes bs i).length = bs := by
  simp only [block_at, List.length_append, List.length_replicate, List.length_take,
    List.length_drop]
  omega

/-! ## Lists: the map, the threads -/

theorem filterMap_set_perm {α β : Type} (f : α → Option β) (l : List α) (i : Nat) (a a' : α)
    (h : l[i]? = some a) :
    ((f a').toList ++ l.filterMap f).Perm ((f a).toList ++ (l.set i a').filterMap f) := by
  induction l generalizing i with
  | nil => simp at h
  | cons x t ih =>
    cases i with
    | zero =>
      simp only [List.getElem?_cons_zero, Option.some.injEq] at h
      subst h
      simp only [List.set_cons_zero, List.filterMap_cons]
      cases f x <;> cases f a' <;> simp [List.Perm.swap]
    | succ i =>
      simp only [List.getElem?_cons_succ] at h
      have ih1 := ih i h
      simp only [List.set_cons_succ, List.filterMap_cons]
      cases hx : f x with
      | none => simpa using ih1
      | some y =>
        simp only
        have h1 : ((f a').toList ++ y :: List.filterMap f t).Perm
            (y :: ((f a').toList ++ List.filterMap f t)) := List.perm_middle
        have h2 : (y :: ((f a).toList ++ List.filterMap f (t.set i a'))).Perm
            ((f a).toList ++ y :: List.filterMap f (t.set i a')) := List.perm_middle.symm
        exact h1.trans ((List.Perm.cons y ih1).trans h2)

theorem mem_map_emplace {k : Int} {v : List Nat} {m : List (Int × List Nat)}
    {e : Int × List Nat} (h : e ∈ map_emplace k v m) : e = (k, v) ∨ e ∈ m := by
  induction m with
  | nil => simpa [map_emplace] using h
  | cons x t ih =>
    simp only [map_emplace] at h
    split_ifs at h with h1 h2
    · simp only [List.mem_cons] at h
      rcases h with h | h | h
      · exact Or.inl h
      · exact Or.inr (by simp [h])
      · exact Or.inr (by simp [h])
    · exact Or.inr h
    · simp only [List.mem_cons] at h
      rcases h with h | h
      · exact Or.inr (by simp [h])
      · rcases ih h with h | h
        · exact Or.inl h
        · exact Or.inr (by simp [h])

theorem mem_map_emplace_of_mem {k : Int} {v : List Nat} {m : List (Int × List Nat)}
    {e : Int × List Nat} (h : e ∈ m) : e ∈ map_emplace k v m := by
  induction m with
  | nil => simp at h
  | cons x t ih =>
    simp only [map_emplace]
    split_ifs with h1 h2
    · exact List.mem_cons_of_mem _ h
    · exact h
    · simp only [List.mem_cons] at h ⊢
      rcases h with h | h
      · exact Or.inl h
      · exact Or.inr (ih h)

theorem key_mem_map_emplace (k : Int) (v : List Nat) (m : List (Int × List Nat)) :
    ∃ v1, (k, v1) ∈ map_emplace k v m := by
  induction m with
  | nil => exact ⟨v, by simp [map_emplace]⟩
  | cons x t ih =>
    simp only [map_emplace]
    split_ifs with h1 h2
    · exact ⟨v, by simp⟩
    · exact ⟨x.2, by simp [h2]⟩
    · obtain ⟨v1, hv1⟩ := ih
      exact ⟨v1, List.mem_cons_of_mem _ hv1⟩

theorem map_emplace_sorted (k : Int) (v : List Nat) (m : List (Int × List Nat))
    (h : m.Pairwise (fun a b => a.1 < b.1)) :
    (map_emplace k v m).Pairwise (fun a b => a.1 < b.1) := by
  induction m with
  | nil => simp [map_emplace]
  | cons x t ih =>
    rw [List.pairwise_cons] at h
    simp only [map_emplace]
    split_ifs with h1 h2
    · rw [List.pairwise_cons]
      refine ⟨?_, List.pairwise_cons.2 h⟩
      intro e he
      simp only [List.mem_cons] at he
      rcases he with he | he
      · subst he
        exact h1
      · exact lt_trans h1 (h.1 e he)
    · exact List.pairwise_cons.2 h
    · rw [List.pairwise_cons]
      refine ⟨?_, ih h.2⟩
      intro e he
      rcases mem_map_emplace he with he | he
      · subst he
        show x.1 < k
        omega
      · exact h.1 e he

theorem held_set (ts : List Worker) (i : Nat) (w w' : Worker) (h : ts[i]? = some w) :
    (w'.item.toList ++ held ts).Perm (w.item.toList ++ held (ts.set i w')) :=
  filterMap_set_perm Worker.item ts i w w' h

theorem held_notify_all (ts : List Worker) : held (notify_all ts) = held ts := by
  induction ts with
  | nil => rfl
  | cons w t ih =>
    simp only [held, notify_all, List.map_cons, List.filterMap_cons] at ih ⊢
    rw [ih]
    cases w <;> simp [Worker.item]

theorem mem_notify_all {ts : List Worker} {w : Worker} (h : w ∈ notify_all ts) :
    w ≠ Worker.waiting ∧ (w ∈ ts ∨ (w = Worker.runnable ∧ Worker.waiting ∈ ts)) := by
  simp only [notify_all, List.mem_map] at h
  obtain ⟨x, hx, rfl⟩ := h
  by_cases hw : x = Worker.waiting
  · subst hw
    simp [hx]
  · simp [hw, hx]

theorem mem_set_cases {α : Type} {l : List α} {i : Nat} {a x : α} (h : x ∈ l.set i a) :
    x = a ∨ x ∈ l := by
  rcases List.mem_or_eq_of_mem_set h with h | h
  · exact Or.inr h
  · exact Or.inl h

theorem held_item_some {ts : List Worker} {x : Item} (h : x ∈ held ts) :
    ∃ b, x.2 = some b ∧ Worker.hashing x.1 b ∈ ts := by
  simp only [held, List.mem_filterMap] at h
  obtain ⟨w, hw, hx⟩ := h
  cases w <;> simp [Worker.item] at hx
  subst hx
  exact ⟨_, rfl, hw⟩

/-! ## What every reachable state of the object satisfies -/

theorem notify_one_cases {ts ts' : List Worker} {wake : Option Nat}
    (h : notify_one ts wake = some ts') :
    ts' = ts ∨ ∃ j, ts[j]? = some Worker.waiting ∧ ts' = ts.set j Worker.runnable := by
  unfold notify_one at h
  cases wake with
  | none =>
    simp only at h
    split_ifs at h
    exact Or.inl (Option.some.inj h).symm
  | some j =>
    simp only at h
    split_ifs at h with hj
    exact Or.inr ⟨j, hj, (Option.some.inj h).symm⟩

theorem held_set_idle (ts : List Worker) (i : Nat) (w w' : Worker) (h : ts[i]? = some w)
    (hw : w.item = none) (hw' : w'.item = none) : (held (ts.set i w')).Perm (held ts) := by
  have := held_set ts i w w' h
  simp only [hw, hw', Option.toList, List.nil_append] at this
  exact this.symm

theorem section_of_cases {c c' : hash_calc} {i : Nat} {wake : Option Nat}
    {d : List (Int × List Nat)} (h : c.section_of i wake d = some c') :
    (c.m_queue = [] ∧ wake = none ∧
      c' = { c with m_digests := d, m_threads := c.m_threads.set i Worker.waiting }) ∨
    (∃ rest ts, c.m_queue = exit_condition :: rest ∧
      notify_one (c.m_threads.set i Worker.exited) wake = some ts ∧
      c' = { c with m_digests := d, m_threads := ts }) ∨
    (∃ n rest, c.m_queue = (n, none) :: rest ∧ n ≠ -1 ∧ wake = none ∧
      c' = { c with m_digests := d, m_threads := c.m_threads.set i (Worker.failed n) }) ∨
    (∃ n b rest, c.m_queue = (n, some b) :: rest ∧ wake = none ∧
      c' = { c with m_digests := d, m_queue := rest,
                    m_threads := c.m_threads.set i (Worker.hashing n b) }) := by
  unfold hash_calc.section_of at h
  split at h
  · rename_i hq
    split_ifs at h with hw
    exact Or.inl ⟨hq, hw, (Option.some.inj h).symm⟩
  · rename_i n rest hq
    split_ifs at h with hn hw
    · subst hn
      simp only [Option.map_eq_some'] at h
      obtain ⟨ts, hts, hc⟩ := h
      exact Or.inr (Or.inl ⟨rest, ts, hq, hts, hc.symm⟩)
    · exact Or.inr (Or.inr (Or.inl ⟨n, rest, hq, hn, hw, (Option.some.inj h).symm⟩))
  · rename_i n b rest hq
    split_ifs at h with hw
    exact Or.inr (Or.inr (Or.inr ⟨n, b, rest, hq, hw, (Option.some.inj h).symm⟩))

theorem notify_one_set_set (ts : List Worker) (i : Nat) (w w' : Worker) (wake : Option Nat) :
    notify_one ((ts.set i w).set i w') wake = notify_one (ts.set i w') wake := by
  rw [List.set_set]

theorem section_of_deposit (c : hash_calc) (i : Nat) (n : Int) (b : List Nat)
    (wake : Option Nat) :
    c.section_of i wake (map_emplace n (MD5 b c.m_block_size) c.m_digests) =
      (c.deposit i n b).section_of i wake (c.deposit i n b).m_digests := by
  unfold hash_calc.section_of hash_calc.deposit
  cases hq : c.m_queue with
  | nil => simp [List.set_set]
  | cons x rest =>
    obtain ⟨m, o⟩ := x
    cases o with
    | none => simp [List.set_set]
    | some blk => simp [List.set_set]

theorem getElem?_set_self_of_some {α : Type} {l : List α} {i : Nat} {a b : α}
    (h : l[i]? = some a) : (l.set i b)[i]? = some b := by
  have hi : i < l.length := by
    by_contra hc
    rw [List.getElem?_eq_none (by omega)] at h
    exact Option.noConfusion h
  rw [List.getElem?_set_self hi]

theorem deposit_thread {c : hash_calc} {i : Nat} {n : Int} {b : List Nat}
    (h : c.m_threads[i]? = some (Worker.hashing n b)) :
    (c.deposit i n b).m_threads[i]? = some Worker.runnable :=
  getElem?_set_self_of_some h

theorem mem_of_getElem? {α : Type} {l : List α} {i : Nat} {a : α} (h : l[i]? = some a) :
    a ∈ l := by
  rw [List.getElem?_eq_some] at h
  obtain ⟨hi, rfl⟩ := h
  exact List.getElem_mem hi

theorem inv_deposit {c : hash_calc} {i : Nat} {n : Int} {b : List Nat} (hc : Inv c)
    (h : c.m_threads[i]? = some (Worker.hashing n b)) : Inv (c.deposit i n b) := by
  obtain ⟨popped, done, hp, hperm, hs1, hs2⟩ := hc.conserve
  have hset := held_set c.m_threads i (Worker.hashing n b) Worker.runnable h
  simp only [Worker.item, Option.toList, List.nil_append, List.singleton_append] at hset
  have hmem : ∀ w, w ∈ (c.m_threads.set i Worker.runnable) → w = Worker.runnable ∨ w ∈ c.m_threads :=
    fun w hw => mem_set_cases hw
  refine ⟨⟨popped, (n, b) :: done, hp, ?_, ?_, ?_⟩, ?_, ?_, hc.token, ?_, ?_⟩
  · show popped.Perm (((n, b) :: done).map (fun p => (p.1, some p.2))
        ++ held (c.m_threads.set i Worker.runnable))
    simp only [List.map_cons, List.cons_append]
    exact hperm.trans ((List.Perm.append_left _ hset).trans List.perm_middle)
  · intro p hpd
    show ∃ v, (p.1, v) ∈ map_emplace n (MD5 b c.m_block_size) c.m_digests
    simp only [List.mem_cons] at hpd
    rcases hpd with hpd | hpd
    · subst hpd
      exact key_mem_map_emplace _ _ _
    · obtain ⟨v, hv⟩ := hs1 p hpd
      exact ⟨v, mem_map_emplace_of_mem hv⟩
  · intro e he
    show ∃ b1, (e.1, b1) ∈ (n, b) :: done ∧ e.2 = MD5 b1 c.m_block_size
    rcases mem_map_emplace he with he | he
    · subst he
      exact ⟨b, by simp, rfl⟩
    · obtain ⟨b1, hb1, hb2⟩ := hs2 e he
      exact ⟨b1, List.mem_cons_of_mem _ hb1, hb2⟩
  · exact map_emplace_sorted _ _ _ hc.sorted
  · intro hq hn hw
    rcases hmem _ hw with hw | hw
    · exact Worker.noConfusion hw
    · exact hc.wakeup hq hn hw
  · intro hw
    rcases hmem _ hw with hw | hw
    · exact Worker.noConfusion hw
    · exact hc.exited hw
  · intro m hw
    rcases hmem _ hw with hw | hw
    · exact Worker.noConfusion hw
    · exact hc.failed m hw

theorem head?_append_of_head? {α : Type} {l : List α} {a : α} (h : l.head? = some a)
    (l2 : List α) : (l ++ l2).head? = some a := by
  cases l with
  | nil => simp at h
  | cons x t => simpa using h

theorem inv_notify_one {c : hash_calc} {ts : List Worker} {wake : Option Nat}
    (hc : Inv c) (h : notify_one c.m_threads wake = some ts) :
    Inv { c with m_threads := ts } := by
  rcases notify_one_cases h with h | ⟨j, hj, h⟩
  · subst h
    exact hc
  · subst h
    obtain ⟨popped, done, hp, hperm, hs1, hs2⟩ := hc.conserve
    have hheld := held_set_idle c.m_threads j Worker.waiting Worker.runnable hj rfl rfl
    have hmem : ∀ w, w ∈ (c.m_threads.set j Worker.runnable) →
        w = Worker.runnable ∨ w ∈ c.m_threads := fun w hw => mem_set_cases hw
    refine ⟨⟨popped, done, hp, ?_, hs1, hs2⟩, hc.sorted, ?_, hc.token, ?_, ?_⟩
    · exact hperm.trans (List.Perm.append_left _ hheld.symm)
    · intro hq hn hw
      rcases hmem _ hw with hw | hw
      · exact Worker.noConfusion hw
      · exact hc.wakeup hq hn hw
    · intro hw
      rcases hmem _ hw with hw | hw
      · exact Worker.noConfusion hw
      · exact hc.exited hw
    · intro m hw
      rcases hmem _ hw with hw | hw
      · exact Worker.noConfusion hw
      · exact hc.failed m hw

theorem inv_section {c c' : hash_calc} {i : Nat} {wake : Option Nat} (hc : Inv c)
    (hi : c.m_threads[i]? = some Worker.runnable)
    (h : c.section_of i wake c.m_digests = some c') : Inv c' := by
  obtain ⟨popped, done, hp, hperm, hs1, hs2⟩ := hc.conserve
  have hmem : ∀ (x w : Worker), w ∈ (c.m_threads.set i x) → w = x ∨ w ∈ c.m_threads :=
    fun x w hw => mem_set_cases hw
  rcases section_of_cases h with ⟨hq, -, rfl⟩ | ⟨rest, ts, hq, hts, rfl⟩ |
      ⟨n, rest, hq, hn, -, rfl⟩ | ⟨n, b, rest, hq, -, rfl⟩
  · -- the queue is empty: the thread blocks
    have hheld := held_set_idle c.m_threads i Worker.runnable Worker.waiting hi rfl rfl
    refine ⟨⟨popped, done, hp, hperm.trans (List.Perm.append_left _ hheld.symm), hs1, hs2⟩,
      hc.sorted, ?_, hc.token, ?_, ?_⟩
    · intro hne
      exact absurd hq hne
    · intro hw
      rcases hmem _ _ hw with hw | hw
      · exact Worker.noConfusion hw
      · exact hc.exited hw
    · intro m hw
      rcases hmem _ _ hw with hw | hw
      · exact Worker.noConfusion hw
      · exact hc.failed m hw
  · -- the exit condition is at the front: notify and leave
    have hheld := held_set_idle c.m_threads i Worker.runnable Worker.exited hi rfl rfl
    have h1 : Inv { c with m_threads := c.m_threads.set i Worker.exited } := by
      refine ⟨⟨popped, done, hp, hperm.trans (List.Perm.append_left _ hheld.symm), hs1, hs2⟩,
        hc.sorted, ?_, hc.token, ?_, ?_⟩
      · intro hne hn hw
        rcases hmem _ _ hw with hw | hw
        · exact Worker.noConfusion hw
        · exact hc.wakeup hne hn hw
      · intro _
        show c.m_queue.head? = some exit_condition
        rw [hq]
        rfl
      · intro m hw
        rcases hmem _ _ hw with hw | hw
        · exact Worker.noConfusion hw
        · exact hc.failed m hw
    exact @inv_notify_one { c with m_threads := c.m_threads.set i Worker.exited } ts wake h1 hts
  · -- an empty block is at the front: throw
    have hheld := held_set_idle c.m_threads i Worker.runnable (Worker.failed n) hi rfl rfl
    refine ⟨⟨popped, done, hp, hperm.trans (List.Perm.append_left _ hheld.symm), hs1, hs2⟩,
      hc.sorted, ?_, hc.token, ?_, ?_⟩
    · intro hne hno hw
      rcases hmem _ _ hw with hw | hw
      · exact Worker.noConfusion hw
      · exact hc.wakeup hne hno hw
    · intro hw
      rcases hmem _ _ hw with hw | hw
      · exact Worker.noConfusion hw
      · exact hc.exited hw
    · intro m hw
      rcases hmem _ _ hw with hw | hw
      · have hmn : m = n := by injection hw
        subst hmn
        refine ⟨hn, ?_⟩
        show c.m_queue.head? = some (m, none)
        rw [hq]
        rfl
      · exact hc.failed m hw
  · -- a block is at the front: pop it and go hashing
    have hset := held_set c.m_threads i Worker.runnable (Worker.hashing n b) hi
    simp only [Worker.item, Option.toList, List.nil_append, List.singleton_append] at hset
    have hnoexit : Worker.exited ∉ c.m_threads := by
      intro hw
      have := hc.exited hw
      rw [hq] at this
      simp [exit_condition] at this
    have hnofail : ∀ m, Worker.failed m ∉ c.m_threads := by
      intro m hw
      have := (hc.failed m hw).2
      rw [hq] at this
      simp at this
    refine ⟨⟨popped ++ [(n, some b)], done, ?_, ?_, hs1, hs2⟩, hc.sorted, ?_, ?_, ?_, ?_⟩
    · show c.pushed = (popped ++ [(n, some b)]) ++ rest
      rw [hp, hq]
      simp
    · show (popped ++ [(n, some b)]).Perm (done.map (fun p => (p.1, some p.2))
        ++ held (c.m_threads.set i (Worker.hashing n b)))
      have h1 : (popped ++ [(n, some b)]).Perm ((n, some b) :: popped) :=
        List.perm_append_singleton _ _
      have h2 : ((n, some b) :: popped).Perm
          ((n, some b) :: (done.map (fun p => (p.1, some p.2)) ++ held c.m_threads)) :=
        List.Perm.cons _ hperm
      have h3 : ((n, some b) :: (done.map (fun p => (p.1, some p.2)) ++ held c.m_threads)).Perm
          (done.map (fun p => (p.1, some p.2)) ++ (n, some b) :: held c.m_threads) :=
        List.perm_middle.symm
      exact h1.trans (h2.trans (h3.trans (List.Perm.append_left _ hset)))
    · intro hne hno hw
      have hqne : c.m_queue ≠ [] := by rw [hq]; simp
      rcases hmem _ _ hw with hw | hw
      · exact Worker.noConfusion hw
      · exact hc.wakeup hqne hno hw
    · intro hcal
      have := hc.token hcal
      rw [hq] at this
      show rest.getLast? = some exit_condition
      cases rest with
      | nil => simp [exit_condition] at this
      | cons y r => simpa [List.getLast?_cons_cons] using this
    · intro hw
      rcases hmem _ _ hw with hw | hw
      · exact Worker.noConfusion hw
      · exact absurd hw hnoexit
    · intro m hw
      rcases hmem _ _ hw with hw | hw
      · exact Worker.noConfusion hw
      · exact absurd hw (hnofail m)

theorem inv_new (bs tc : Nat) : Inv (hash_calc.new bs tc) := by
  have hmem : ∀ w, w ∈ (hash_calc.new bs tc).m_threads → w = Worker.runnable := by
    intro w hw
    exact List.eq_of_mem_replicate hw
  have hheld : held (hash_calc.new bs tc).m_threads = [] := by
    simp only [held, List.filterMap_eq_nil_iff]
    intro w hw
    rw [hmem w hw]
    rfl
  refine ⟨⟨[], [], rfl, ?_, ?_, ?_⟩, ?_, ?_, ?_, ?_, ?_⟩
  · rw [hheld]
    simp
  · intro p hp
    simp at hp
  · intro e he
    simp [hash_calc.new] at he
  · simp [hash_calc.new]
  · intro hq
    simp [hash_calc.new] at hq
  · intro h
    simp [hash_calc.new] at h
  · intro hw
    exact Worker.noConfusion (hmem _ hw)
  · intro n hw
    exact Worker.noConfusion (hmem _ hw)

theorem inv_push {c : hash_calc} (hc : Inv c) (pair : Item) (fin : Bool)
    (hfin : fin = true → pair = exit_condition) :
    Inv { c with m_queue := c.m_queue ++ [pair], pushed := c.pushed ++ [pair],
                 caller := Caller.notifying fin } := by
  obtain ⟨popped, done, hp, hperm, hs1, hs2⟩ := hc.conserve
  refine ⟨⟨popped, done, ?_, hperm, hs1, hs2⟩, hc.sorted, ?_, ?_, ?_, ?_⟩
  · show c.pushed ++ [pair] = popped ++ (c.m_queue ++ [pair])
    rw [hp, List.append_assoc]
  · intro _ hn
    exact absurd rfl (hn fin)
  · intro hcal
    show (c.m_queue ++ [pair]).getLast? = some exit_condition
    rcases hcal with hcal | hcal
    · have hf : fin = true := by injection hcal
      rw [hfin hf]
      simp
    · exact Caller.noConfusion hcal
  · intro hw
    exact head?_append_of_head? (hc.exited hw) _
  · intro n hw
    exact ⟨(hc.failed n hw).1, head?_append_of_head? (hc.failed n hw).2 _⟩

theorem inv_step {c c' : hash_calc} {a : Action} (hc : Inv c) (h : c.step a = some c') :
    Inv c' := by
  cases a with
  | add_block pair =>
    simp only [hash_calc.step] at h
    split_ifs at h
    rw [← Option.some.inj h]
    exact inv_push hc pair false (fun hf => Bool.noConfusion hf)
  | finish =>
    simp only [hash_calc.step] at h
    split_ifs at h
    rw [← Option.some.inj h]
    exact inv_push hc exit_condition true (fun _ => rfl)
  | notify_all =>
    simp only [hash_calc.step] at h
    split at h
    · rename_i fin hcal
      rw [← Option.some.inj h]
      obtain ⟨popped, done, hp, hperm, hs1, hs2⟩ := hc.conserve
      refine ⟨⟨popped, done, hp, ?_, hs1, hs2⟩, hc.sorted, ?_, ?_, ?_, ?_⟩
      · show popped.Perm (_ ++ held (notify_all c.m_threads))
        rw [held_notify_all]
        exact hperm
      · intro _ _ hw
        exact (mem_notify_all hw).1 rfl
      · intro hcal2
        apply hc.token
        cases fin with
        | true => exact Or.inl hcal
        | false =>
          simp only [Bool.false_eq_true, if_false] at hcal2
          rcases hcal2 with hcal2 | hcal2 <;> exact Caller.noConfusion hcal2
      · intro hw
        rcases (mem_notify_all hw).2 with hw | ⟨hw, -⟩
        · exact hc.exited hw
        · exact Worker.noConfusion hw
      · intro n hw
        rcases (mem_notify_all hw).2 with hw | ⟨hw, -⟩
        · exact hc.failed n hw
        · exact Worker.noConfusion hw
    · exact Option.noConfusion h
  | run i wake =>
    simp only [hash_calc.step] at h
    split at h
    · rename_i hi
      exact inv_section hc hi h
    · rename_i n b hi
      rw [section_of_deposit] at h
      exact inv_section (inv_deposit hc hi) (deposit_thread hi) h
    · exact Option.noConfusion h
  | spurious i =>
    simp only [hash_calc.step] at h
    split at h
    · rename_i hi
      rw [← Option.some.inj h]
      obtain ⟨popped, done, hp, hperm, hs1, hs2⟩ := hc.conserve
      have hheld := held_set_idle c.m_threads i Worker.waiting Worker.runnable hi rfl rfl
      have hmem : ∀ w, w ∈ (c.m_threads.set i Worker.runnable) →
          w = Worker.runnable ∨ w ∈ c.m_threads := fun w hw => mem_set_cases hw
      refine ⟨⟨popped, done, hp, hperm.trans (List.Perm.append_left _ hheld.symm), hs1, hs2⟩,
        hc.sorted, ?_, hc.token, ?_, ?_⟩
      · intro hq hn hw
        rcases hmem _ hw with hw | hw
        · exact Worker.noConfusion hw
        · exact hc.wakeup hq hn hw
      · intro hw
        rcases hmem _ hw with hw | hw
        · exact Worker.noConfusion hw
        · exact hc.exited hw
      · intro m hw
        rcases hmem _ hw with hw | hw
        · exact Worker.noConfusion hw
        · exact hc.failed m hw
    · exact Option.noConfusion h

theorem inv_exec {c c' : hash_calc} (schedule : List Action) (hc : Inv c)
    (h : c.exec schedule = some c') : Inv c' := by
  induction schedule generalizing c with
  | nil =>
    simp only [hash_calc.exec, Option.some.injEq] at h
    rw [← h]
    exact hc
  | cons a rest ih =>
    simp only [hash_calc.exec, Option.bind_eq_some] at h
    obtain ⟨c1, h1, h2⟩ := h
    exact ih (inv_step hc h1) h2

theorem inv_reachable {bs tc : Nat} {c : hash_calc} (h : Reachable bs tc c) : Inv c := by
  obtain ⟨schedule, hs⟩ := h
  exact inv_exec schedule (inv_new bs tc) hs

/-! ## The state when `join()` has returned -/

theorem step_shape {c c' : hash_calc} {a : Action} (h : c.step a = some c') :
    c'.m_block_size = c.m_block_size ∧ c'.m_threads.length = c.m_threads.length := by
  have hsec : ∀ (i : Nat) (wake : Option Nat) (d : List (Int × List Nat)),
      c.section_of i wake d = some c' →
      c'.m_block_size = c.m_block_size ∧ c'.m_threads.length = c.m_threads.length := by
    intro i wake d hs
    rcases section_of_cases hs with ⟨-, -, rfl⟩ | ⟨rest, ts, -, hts, rfl⟩ |
        ⟨n, rest, -, -, -, rfl⟩ | ⟨n, b, rest, -, -, rfl⟩
    · simp
    · rcases notify_one_cases hts with hts | ⟨j, -, hts⟩ <;> (subst hts; simp)
    · simp
    · simp
  cases a with
  | add_block pair =>
    simp only [hash_calc.step] at h
    split_ifs at h
    rw [← Option.some.inj h]
    simp
  | finish =>
    simp only [hash_calc.step] at h
    split_ifs at h
    rw [← Option.some.inj h]
    simp
  | notify_all =>
    simp only [hash_calc.step] at h
    split at h
    · rw [← Option.some.inj h]
      simp [notify_all]
    · exact Option.noConfusion h
  | run i wake =>
    simp only [hash_calc.step] at h
    split at h
    · exact hsec _ _ _ h
    · exact hsec _ _ _ h
    · exact Option.noConfusion h
  | spurious i =>
    simp only [hash_calc.step] at h
    split at h
    · rw [← Option.some.inj h]
      simp
    · exact Option.noConfusion h

theorem exec_shape {c c' : hash_calc} (schedule : List Action) (h : c.exec schedule = some c') :
    c'.m_block_size = c.m_block_size ∧ c'.m_threads.length = c.m_threads.length := by
  induction schedule generalizing c with
  | nil =>
    simp only [hash_calc.exec, Option.some.injEq] at h
    rw [← h]
    exact ⟨rfl, rfl⟩
  | cons a rest ih =>
    simp only [hash_calc.exec, Option.bind_eq_some] at h
    obtain ⟨c1, h1, h2⟩ := h
    have s1 := step_shape h1
    have s2 := ih h2
    exact ⟨s2.1.trans s1.1, s2.2.trans s1.2⟩

theorem reachable_shape {bs tc : Nat} {c : hash_calc} (h : Reachable bs tc c) :
    c.m_block_size = bs ∧ c.m_threads.length = (if tc < 1 then 1 else tc) := by
  obtain ⟨schedule, hs⟩ := h
  have := exec_shape schedule hs
  simpa [hash_calc.new] using this

theorem reachable_threads_ne_nil {bs tc : Nat} {c : hash_calc} (h : Reachable bs tc c) :
    c.m_threads ≠ [] := by
  intro hnil
  have := (reachable_shape h).2
  rw [hnil] at this
  simp only [List.length_nil] at this
  split_ifs at this
  omega

theorem sorted_ext {l1 l2 : List (Int × List Nat)}
    (h1 : l1.Pairwise (fun a b => a.1 < b.1)) (h2 : l2.Pairwise (fun a b => a.1 < b.1))
    (h : ∀ e, e ∈ l1 ↔ e ∈ l2) : l1 = l2 := by
  have hne : ∀ a b : Int × List Nat, a.1 < b.1 → a ≠ b := by
    intro a b hab heq
    rw [heq] at hab
    exact lt_irrefl _ hab
  have d1 : l1.Nodup := List.Pairwise.imp (fun {a b} hab => hne a b hab) h1
  have d2 : l2.Nodup := List.Pairwise.imp (fun {a b} hab => hne a b hab) h2
  have hperm : l1.Perm l2 := (List.perm_ext_iff_of_nodup d1 d2).2 h
  haveI : IsAntisymm (Int × List Nat) (fun a b => a.1 < b.1) :=
    ⟨fun a b hab hba => absurd hab (not_lt.2 (le_of_lt hba))⟩
  exact List.eq_of_perm_of_sorted hperm h1 h2

theorem finished_done {c : hash_calc} (hc : Inv c)
    (hall : c.m_threads.all Worker.finished = true) (hne : c.m_threads ≠ []) :
    ∃ done : List (Int × List Nat),
      (done.map (fun p => (p.1, some p.2))).Perm (served c.pushed) ∧
      (∀ p ∈ done, ∃ v, (p.1, v) ∈ c.m_digests) ∧
      (∀ e ∈ c.m_digests, ∃ b, (e.1, b) ∈ done ∧ e.2 = MD5 b c.m_block_size) := by
  obtain ⟨popped, done, hp, hperm, hs1, hs2⟩ := hc.conserve
  rw [List.all_eq_true] at hall
  have hheld : held c.m_threads = [] := by
    simp only [held, List.filterMap_eq_nil_iff]
    intro w hw
    have := hall w hw
    cases w <;> first | rfl | simp [Worker.finished] at this
  rw [hheld, List.append_nil] at hperm
  have hhead : ∃ m rest, c.m_queue = (m, none) :: rest := by
    obtain ⟨w, hw⟩ := List.exists_mem_of_ne_nil _ hne
    have hf := hall w hw
    cases w with
    | exited =>
      have := hc.exited hw
      cases hq : c.m_queue with
      | nil => rw [hq] at this; simp at this
      | cons x r =>
        rw [hq] at this
        simp only [List.head?_cons, Option.some.injEq] at this
        exact ⟨-1, r, by rw [this]; rfl⟩
    | failed n =>
      have := (hc.failed n hw).2
      cases hq : c.m_queue with
      | nil => rw [hq] at this; simp at this
      | cons x r =>
        rw [hq] at this
        simp only [List.head?_cons, Option.some.injEq] at this
        exact ⟨n, r, by rw [this]⟩
    | runnable => simp [Worker.finished] at hf
    | waiting => simp [Worker.finished] at hf
    | hashing n b => simp [Worker.finished] at hf
  obtain ⟨m, rest, hq⟩ := hhead
  have hsome : ∀ x ∈ popped, (fun it : Item => it.2.isSome) x = true := by
    intro x hx
    have := hperm.subset hx
    simp only [List.mem_map] at this
    obtain ⟨p, -, rfl⟩ := this
    rfl
  have hserved : served c.pushed = popped := by
    unfold served
    rw [hp, hq, List.takeWhile_append_of_pos hsome]
    simp
  refine ⟨done, ?_, hs1, hs2⟩
  rw [hserved]
  exact hperm.symm

theorem mem_digests_iff {c : hash_calc} (hc : Inv c)
    (hall : c.m_threads.all Worker.finished = true) (hne : c.m_threads ≠ [])
    (huniq : ∀ k x y, (k, some x) ∈ served c.pushed → (k, some y) ∈ served c.pushed → x = y)
    (e : Int × List Nat) :
    e ∈ c.m_digests ↔ ∃ b, (e.1, some b) ∈ served c.pushed ∧ e.2 = MD5 b c.m_block_size := by
  obtain ⟨done, hperm, hs1, hs2⟩ := finished_done hc hall hne
  have hdone : ∀ k b, (k, b) ∈ done ↔ (k, some b) ∈ served c.pushed := by
    intro k b
    rw [← hperm.mem_iff]
    simp only [List.mem_map, Prod.mk.injEq, Option.some.injEq]
    constructor
    · intro h
      exact ⟨(k, b), h, rfl, rfl⟩
    · rintro ⟨p, hp, h1, h2⟩
      have : p = (k, b) := Prod.ext h1 h2
      rw [← this]
      exact hp
  constructor
  · intro he
    obtain ⟨b, hb, hb2⟩ := hs2 e he
    exact ⟨b, (hdone _ _).1 hb, hb2⟩
  · rintro ⟨b, hb, hb2⟩
    obtain ⟨v, hv⟩ := hs1 (e.1, b) ((hdone _ _).2 hb)
    obtain ⟨b1, hb1, hv2⟩ := hs2 _ hv
    have hbb : b1 = b := huniq e.1 b1 b ((hdone _ _).1 hb1) hb
    have hev : e = (e.1, v) := by
      apply Prod.ext
      · rfl
      · show e.2 = v
        have hv3 : v = MD5 b1 c.m_block_size := hv2
        rw [hb2, hv3, hbb]
    rw [hev]
    exact hv

theorem served_subset {items : List Item} {x : Item}
    (h : x ∈ served (items ++ [exit_condition])) : x ∈ items ∧ x.2.isSome = true := by
  have hp : x.2.isSome = true := by
    have := List.mem_takeWhile_imp h
    simpa using this
  have hmem : x ∈ items ++ [exit_condition] := (List.takeWhile_sublist _).subset h
  simp only [List.mem_append, List.mem_singleton] at hmem
  rcases hmem with hmem | hmem
  · exact ⟨hmem, hp⟩
  · rw [hmem] at hp
    simp [exit_condition] at hp

theorem unique_of_nodup_keys {items : List Item} (h : (items.map Prod.fst).Nodup)
    {k : Int} {x y : Option (List Nat)} (hx : (k, x) ∈ items) (hy : (k, y) ∈ items) : x = y := by
  induction items with
  | nil => simp at hx
  | cons a t ih =>
    simp only [List.map_cons, List.nodup_cons, List.mem_map, not_exists, not_and] at h
    simp only [List.mem_cons] at hx hy
    rcases hx with hx | hx <;> rcases hy with hy | hy
    · rw [← hx] at hy
      exact (Prod.mk.inj hy).2.symm
    · exact absurd (by rw [← hx]) (h.1 _ hy)
    · exact absurd (by rw [← hy]) (h.1 _ hx)
    · exact ih h.2 hx hy

theorem le_bytes_length (n x : Nat) : (le_bytes n x).length = n := by
  induction n generalizing x with
  | zero => rfl
  | succ n ih => simp [le_bytes, ih]

theorem MD5_length (d : List Nat) (n : Nat) : (MD5 d n).length = MD5_DIGEST_LENGTH := by
  simp only [MD5, List.length_append, le_bytes_length, MD5_DIGEST_LENGTH]

theorem MD5_test_empty :
    MD5 [] 0 = [0xd4, 0x1d, 0x8c, 0xd9, 0x8f, 0x00, 0xb2, 0x04,
                0xe9, 0x80, 0x09, 0x98, 0xec, 0xf8, 0x42, 0x7e] := by
  decide

theorem MD5_test_abc :
    MD5 [0x61, 0x62, 0x63] 3 = [0x90, 0x01, 0x50, 0x98, 0x3c, 0xd2, 0x4f, 0xb0,
                                0xd6, 0x96, 0x3f, 0x7d, 0x28, 0xe1, 0x7f, 0x72] := by
  decide

theorem flatMap_length_const {α : Type} (f : α → List Nat) (k : Nat)
    (hf : ∀ a, (f a).length = k) (l : List α) : (l.flatMap f).length = l.length * k := by
  induction l with
  | nil => simp
  | cons a t ih =>
    simp only [List.flatMap_cons, List.length_append, List.length_cons, hf, ih]
    ring

theorem flatMap_slice {α : Type} (f : α → List Nat) (k : Nat) (hf : ∀ a, (f a).length = k)
    (l : List α) (i : Nat) (a : α) (hi : l[i]? = some a) :
    ((l.flatMap f).drop (i * k)).take k = f a := by
  induction l generalizing i with
  | nil => simp at hi
  | cons x t ih =>
    cases i with
    | zero =>
      simp only [List.getElem?_cons_zero, Option.some.injEq] at hi
      subst hi
      simp only [Nat.zero_mul, List.drop_zero, List.flatMap_cons]
      rw [← hf x]
      exact List.take_left _ _
    | succ i =>
      simp only [List.getElem?_cons_succ] at hi
      have hk : (i + 1) * k = (f x).length + i * k := by rw [hf x]; ring
      rw [List.flatMap_cons, hk, List.drop_append]
      exact ih i hi

theorem served_blocks_upto (bytes : List Nat) (bs n : Nat) :
    served (blocks_upto bytes bs n ++ [exit_condition]) = blocks_upto bytes bs n := by
  unfold served
  rw [List.takeWhile_append_of_pos]
  · simp [exit_condition]
  · intro a ha
    simp only [blocks_upto, List.mem_map] at ha
    obtain ⟨i, -, rfl⟩ := ha
    rfl

theorem mem_blocks_upto {bytes : List Nat} {bs n : Nat} {k : Int} {b : List Nat} :
    (k, some b) ∈ blocks_upto bytes bs n ↔ ∃ i, i < n ∧ k = (i : Int) ∧ b = block_at bytes bs i := by
  simp only [blocks_upto, List.mem_map, List.mem_range, Prod.mk.injEq, Option.some.injEq]
  constructor
  · rintro ⟨i, hi, h1, h2⟩
    exact ⟨i, hi, h1.symm, h2.symm⟩
  · rintro ⟨i, hi, h1, h2⟩
    exact ⟨i, hi, h1.symm, h2.symm⟩

theorem digests_of_sorted (bytes : List Nat) (bs n : Nat) :
    (digests_of bytes bs n).Pairwise (fun a b => a.1 < b.1) := by
  unfold digests_of
  rw [List.pairwise_map]
  refine List.Pairwise.imp ?_ (List.pairwise_lt_range n)
  intro a b hab
  show (a : Int) < (b : Int)
  exact_mod_cast hab

theorem pipeline_digests {bytes : List Nat} {bs tc n : Nat} {c : hash_calc}
    (hreach : Reachable bs tc c)
    (hpushed : c.pushed = blocks_upto bytes bs n ++ [exit_condition])
    (hjoined : c.joined = true) :
    c.m_digests = digests_of bytes bs n := by
  have hinv := inv_reachable hreach
  have hbs := (reachable_shape hreach).1
  have hall : c.m_threads.all Worker.finished = true := by
    simp only [hash_calc.joined, Bool.and_eq_true] at hjoined
    exact hjoined.2
  have hne := reachable_threads_ne_nil hreach
  have hserved : served c.pushed = blocks_upto bytes bs n := by
    rw [hpushed, served_blocks_upto]
  apply sorted_ext hinv.sorted (digests_of_sorted bytes bs n)
  intro e
  rw [mem_digests_iff hinv hall hne ?_ e, hserved, hbs]
  · constructor
    · rintro ⟨b, hb, he2⟩
      obtain ⟨i, hi, hk, hbi⟩ := mem_blocks_upto.1 hb
      simp only [digests_of, List.mem_map, List.mem_range]
      refine ⟨i, hi, ?_⟩
      apply Prod.ext
      · exact hk.symm
      · show MD5 (block_at bytes bs i) bs = e.2
        rw [he2, hbi]
    · intro he
      simp only [digests_of, List.mem_map, List.mem_range] at he
      obtain ⟨i, hi, rfl⟩ := he
      exact ⟨block_at bytes bs i, mem_blocks_upto.2 ⟨i, hi, rfl, rfl⟩, rfl⟩
  · intro k x y hx hy
    rw [hserved] at hx hy
    obtain ⟨i, -, hk, hbi⟩ := mem_blocks_upto.1 hx
    obtain ⟨j, -, hk2, hbj⟩ := mem_blocks_upto.1 hy
    have hij : i = j := by
      have : (i : Int) = (j : Int) := by rw [← hk, ← hk2]
      exact_mod_cast this
    rw [hbi, hbj, hij]

theorem output_digests_of (bytes : List Nat) (bs n : Nat) :
    (digests_of bytes bs n).flatMap (fun e => e.2.take MD5_DIGEST_LENGTH) =
      (List.range n).flatMap (fun i => MD5 (block_at bytes bs i) bs) := by
  unfold digests_of
  induction n with
  | zero => rfl
  | succ n ih =>
    rw [List.range_succ, List.map_append, List.flatMap_append, List.flatMap_append, ih]
    simp only [List.map_cons, List.map_nil, List.flatMap_cons, List.flatMap_nil, List.append_nil]
    rw [← MD5_length (block_at bytes bs n) bs, List.take_length]

theorem read_loop_some {bytes : List Nat} {bs fuel : Nat} {st : ReadLoop} (hbs : 1 ≤ bs)
    (h : read_loop bs fuel (ReadLoop.start bytes) = some st) :
    st.added = blocks_upto bytes bs (bytes.length / bs + 1) := by
  by_cases hf : fuel ≤ bytes.length / bs
  · rw [read_loop_short bytes bs hbs fuel hf] at h
    exact Option.noConfusion h
  · rw [read_loop_result bytes bs hbs fuel (by omega)] at h
    rw [← Option.some.inj h]

theorem blocks_upto_length (bytes : List Nat) (bs n : Nat) :
    (blocks_upto bytes bs n).length = n := by
  simp [blocks_upto]

/-! ## After `finish()`: progress and termination -/

theorem weight_set {ts : List Worker} {i : Nat} {w : Worker} (h : ts[i]? = some w)
    (w' : Worker) :
    ((ts.set i w').map Worker.weight).sum + w.weight = (ts.map Worker.weight).sum + w'.weight := by
  induction ts generalizing i with
  | nil => simp at h
  | cons x t ih =>
    cases i with
    | zero =>
      simp only [List.getElem?_cons_zero, Option.some.injEq] at h
      subst h
      simp only [List.set_cons_zero, List.map_cons, List.sum_cons]
      omega
    | succ i =>
      simp only [List.getElem?_cons_succ] at h
      have := ih h
      simp only [List.set_cons_succ, List.map_cons, List.sum_cons]
      omega

theorem weight_notify_all (ts : List Worker) :
    ((notify_all ts).map Worker.weight).sum ≤ (ts.map Worker.weight).sum := by
  induction ts with
  | nil => simp [notify_all]
  | cons x t ih =>
    simp only [notify_all, List.map_cons, List.sum_cons] at ih ⊢
    have hx : (if x = Worker.waiting then Worker.runnable else x).weight ≤ x.weight := by
      split_ifs with hw
      · subst hw
        simp [Worker.weight]
      · exact Nat.le_refl _
    omega

theorem weight_notify_one {ts ts' : List Worker} {wake : Option Nat}
    (h : notify_one ts wake = some ts') :
    (ts'.map Worker.weight).sum ≤ (ts.map Worker.weight).sum := by
  rcases notify_one_cases h with h | ⟨j, hj, h⟩
  · subst h
    exact Nat.le_refl _
  · subst h
    have := weight_set hj Worker.runnable
    simp only [Worker.weight] at this
    omega

theorem section_budget {c c' : hash_calc} {i : Nat} {wake : Option Nat}
    {d : List (Int × List Nat)} {w : Worker} (hi : c.m_threads[i]? = some w)
    (hw : w.weight = 1) (hq : c.m_queue ≠ []) (h : c.section_of i wake d = some c') :
    c'.budget < c.budget ∧ c'.caller = c.caller := by
  rcases section_of_cases h with ⟨hq0, -, rfl⟩ | ⟨rest, ts, hq1, hts, rfl⟩ |
      ⟨n, rest, hq1, -, -, rfl⟩ | ⟨n, b, rest, hq1, -, rfl⟩
  · exact absurd hq0 hq
  · have h1 := weight_set hi Worker.exited
    have h2 := weight_notify_one hts
    have he : Worker.exited.weight = 0 := rfl
    rw [hw, he] at h1
    refine ⟨?_, rfl⟩
    simp only [hash_calc.budget]
    omega
  · have h1 := weight_set hi (Worker.failed n)
    have he : (Worker.failed n).weight = 0 := rfl
    rw [hw, he] at h1
    refine ⟨?_, rfl⟩
    simp only [hash_calc.budget]
    omega
  · have h1 := weight_set hi (Worker.hashing n b)
    have he : (Worker.hashing n b).weight = 1 := rfl
    rw [hw, he] at h1
    refine ⟨?_, rfl⟩
    simp only [hash_calc.budget, hq1, List.length_cons]
    omega

theorem queue_ne_nil_of_finishing {c : hash_calc} (hc : Inv c) (hf : c.finishing) :
    c.m_queue ≠ [] := by
  intro hq
  have := hc.token hf
  rw [hq] at this
  simp at this

theorem step_budget {c c' : hash_calc} {a : Action} (hc : Inv c) (hf : c.finishing)
    (h : c.step a = some c') : c'.budget < c.budget ∧ c'.finishing ∧ c'.pushed = c.pushed := by
  have hq := queue_ne_nil_of_finishing hc hf
  have hsec : ∀ (i : Nat) (wake : Option Nat) (d : List (Int × List Nat)) (w : Worker),
      c.m_threads[i]? = some w → w.weight = 1 → c.section_of i wake d = some c' →
      c'.budget < c.budget ∧ c'.finishing ∧ c'.pushed = c.pushed := by
    intro i wake d w hi hw hs
    have hb := section_budget hi hw hq hs
    refine ⟨hb.1, ?_, ?_⟩
    · unfold hash_calc.finishing
      rw [hb.2]
      exact hf
    · rcases section_of_cases hs with ⟨-, -, rfl⟩ | ⟨rest, ts, -, -, rfl⟩ |
        ⟨n, rest, -, -, -, rfl⟩ | ⟨n, b, rest, -, -, rfl⟩ <;> rfl
  cases a with
  | add_block pair =>
    simp only [hash_calc.step] at h
    split_ifs at h with hcal
    rcases hf with hf | hf <;> rw [hf] at hcal <;> exact Caller.noConfusion hcal
  | finish =>
    simp only [hash_calc.step] at h
    split_ifs at h with hcal
    rcases hf with hf | hf <;> rw [hf] at hcal <;> exact Caller.noConfusion hcal
  | notify_all =>
    simp only [hash_calc.step] at h
    split at h
    · rename_i fin hcal
      rw [← Option.some.inj h]
      have hfin : fin = true := by
        rcases hf with hf | hf
        · rw [hf] at hcal
          injection hcal with hcal
          exact hcal.symm
        · rw [hf] at hcal
          exact Caller.noConfusion hcal
      subst hfin
      have := weight_notify_all c.m_threads
      refine ⟨?_, Or.inr rfl, rfl⟩
      simp only [hash_calc.budget, hcal, if_true]
      omega
    · exact Option.noConfusion h
  | run i wake =>
    simp only [hash_calc.step] at h
    split at h
    · rename_i hi
      exact hsec _ _ _ _ hi rfl h
    · rename_i n b hi
      exact hsec _ _ _ _ hi rfl h
    · exact Option.noConfusion h
  | spurious i =>
    simp only [hash_calc.step] at h
    split at h
    · rename_i hi
      rw [← Option.some.inj h]
      have h1 := weight_set hi Worker.runnable
      simp only [Worker.weight] at h1
      refine ⟨?_, hf, rfl⟩
      simp only [hash_calc.budget]
      omega
    · exact Option.noConfusion h

theorem exec_budget {c c' : hash_calc} (schedule : List Action) (hc : Inv c)
    (hf : c.finishing) (h : c.exec schedule = some c') :
    schedule.length + c'.budget ≤ c.budget ∧ c'.finishing ∧ c'.pushed = c.pushed := by
  induction schedule generalizing c with
  | nil =>
    simp only [hash_calc.exec, Option.some.injEq] at h
    rw [← h]
    exact ⟨by simp, hf, rfl⟩
  | cons a rest ih =>
    simp only [hash_calc.exec, Option.bind_eq_some] at h
    obtain ⟨c1, h1, h2⟩ := h
    have s1 := step_budget hc hf h1
    have s2 := ih (inv_step hc h1) s1.2.1 h2
    refine ⟨?_, s2.2.1, s2.2.2.trans s1.2.2⟩
    simp only [List.length_cons]
    omega

theorem run_enabled {c : hash_calc} (hc : Inv c) (hcal : c.caller = Caller.joining)
    {i : Nat} {w : Worker} (hi : c.m_threads[i]? = some w) (hw : w.finished = false) :
    w ≠ Worker.waiting ∧ ∃ c', c.step (Action.run i none) = some c' := by
  have hq := queue_ne_nil_of_finishing hc (Or.inr hcal)
  have hnw : Worker.waiting ∉ c.m_threads := by
    apply hc.wakeup hq
    intro fin hfin
    rw [hcal] at hfin
    exact Caller.noConfusion hfin
  have hsec : ∀ d, ∃ c', c.section_of i none d = some c' := by
    intro d
    unfold hash_calc.section_of
    cases hqq : c.m_queue with
    | nil => exact absurd hqq hq
    | cons x rest =>
      obtain ⟨n, o⟩ := x
      cases o with
      | none =>
        by_cases hn : n = -1
        · have hno : Worker.waiting ∉ c.m_threads.set i Worker.exited := by
            intro hm
            rcases mem_set_cases hm with hm | hm
            · exact Worker.noConfusion hm
            · exact hnw hm
          simp [hn, notify_one, hno]
        · simp [hn]
      | some b => simp
  refine ⟨?_, ?_⟩
  · intro hww
    rw [hww] at hi
    exact hnw (mem_of_getElem? hi)
  · cases w with
    | runnable =>
      simp only [hash_calc.step, hi]
      exact hsec _
    | hashing n b =>
      simp only [hash_calc.step, hi]
      exact hsec _
    | waiting => exact absurd (mem_of_getElem? hi) hnw
    | exited => simp [Worker.finished] at hw
    | failed n => simp [Worker.finished] at hw

theorem exists_unfinished {ts : List Worker} (h : ts.all Worker.finished = false) :
    ∃ (i : Nat) (w : Worker), ts[i]? = some w ∧ w.finished = false := by
  induction ts with
  | nil => simp at h
  | cons x t ih =>
    by_cases hx : x.finished = true
    · simp only [List.all_cons, hx, Bool.true_and] at h
      obtain ⟨i, w, hi, hw⟩ := ih h
      exact ⟨i + 1, w, by simpa using hi, hw⟩
    · exact ⟨0, x, by simp, by simpa using hx⟩

theorem exists_join {c : hash_calc} (hc : Inv c) (hf : c.finishing) :
    ∃ schedule c', c.exec schedule = some c' ∧ c'.joined = true := by
  generalize hb : c.budget = k
  induction k using Nat.strong_induction_on generalizing c with
  | _ k ih =>
    rcases hf with hcal | hcal
    · -- the pending `notify_all`
      have hstep : c.step Action.notify_all = some
          { c with m_threads := notify_all c.m_threads, caller := Caller.joining } := by
        simp [hash_calc.step, hcal]
      have s1 := step_budget hc (Or.inl hcal) hstep
      obtain ⟨sch, c', h1, h2⟩ := ih _ (by rw [← hb]; exact s1.1) (inv_step hc hstep) s1.2.1 rfl
      exact ⟨Action.notify_all :: sch, c', by simp [hash_calc.exec, hstep, h1], h2⟩
    · by_cases hall : c.m_threads.all Worker.finished = true
      · exact ⟨[], c, rfl, by simp [hash_calc.joined, hcal, hall]⟩
      · have hall2 : c.m_threads.all Worker.finished = false := by simpa using hall
        obtain ⟨i, w, hi, hw⟩ := exists_unfinished hall2
        obtain ⟨-, c1, hstep⟩ := run_enabled hc hcal hi hw
        have s1 := step_budget hc (Or.inr hcal) hstep
        obtain ⟨sch, c', h1, h2⟩ :=
          ih _ (by rw [← hb]; exact s1.1) (inv_step hc hstep) s1.2.1 rfl
        exact ⟨Action.run i none :: sch, c', by simp [hash_calc.exec, hstep, h1], h2⟩

/-! ## Items without data in the queue -/

theorem popped_items {c : hash_calc} (hc : Inv c) :
    ∃ popped : List Item, c.pushed = popped ++ c.m_queue ∧
      (∀ x ∈ popped, x.2.isSome = true) ∧
      (∀ e ∈ c.m_digests, ∃ b, (e.1, some b) ∈ popped ∧ e.2 = MD5 b c.m_block_size) := by
  obtain ⟨popped, done, hp, hperm, -, hs2⟩ := hc.conserve
  refine ⟨popped, hp, ?_, ?_⟩
  · intro x hx
    have := hperm.subset hx
    simp only [List.mem_append, List.mem_map] at this
    rcases this with ⟨p, -, rfl⟩ | hh
    · rfl
    · obtain ⟨b, hb, -⟩ := held_item_some hh
      rw [hb]
      rfl
  · intro e he
    obtain ⟨b, hb, hb2⟩ := hs2 e he
    refine ⟨b, ?_, hb2⟩
    apply hperm.symm.subset
    simp only [List.mem_append, List.mem_map]
    exact Or.inl ⟨(e.1, b), hb, rfl⟩

theorem split_at_nodata {ahead behind popped queue : List Item} {x : Item}
    (h : ahead ++ x :: behind = popped ++ queue) (hx : x.2.isSome = false)
    (hpop : ∀ y ∈ popped, y.2.isSome = true) :
    ∃ front, ahead = popped ++ front ∧ queue = front ++ x :: behind := by
  rcases List.append_eq_append_iff.1 h with ⟨a', h1, h2⟩ | ⟨c', h1, h2⟩
  · cases a' with
    | nil =>
      refine ⟨[], ?_, ?_⟩
      · simpa using h1.symm
      · simpa using h2.symm
    | cons y a2 =>
      simp only [List.cons_append, List.cons.injEq] at h2
      have : x ∈ popped := by
        rw [h1, h2.1]
        simp
      have := hpop x this
      rw [hx] at this
      exact Bool.noConfusion this
  · exact ⟨c', h1, h2⟩

theorem queue_split {c : hash_calc} (hc : Inv c) {ahead behind : List Item} {x : Item}
    (hpushed : c.pushed = ahead ++ x :: behind) (hx : x.2.isSome = false) :
    ∃ popped front, ahead = popped ++ front ∧ c.m_queue = front ++ x :: behind ∧
      (∀ e ∈ c.m_digests, ∃ b, (e.1, some b) ∈ popped ∧ e.2 = MD5 b c.m_block_size) := by
  obtain ⟨popped, hp, hsome, hst⟩ := popped_items hc
  rw [hpushed] at hp
  obtain ⟨front, h1, h2⟩ := split_at_nodata hp hx hsome
  exact ⟨popped, front, h1, h2, hst⟩

theorem front_nil_of_head {front behind : List Item} {x : Item} {m : Int}
    (hfront : ∀ y ∈ front, y.2.isSome = true)
    (h : (front ++ x :: behind).head? = some (m, none)) : front = [] ∧ x = (m, none) := by
  cases front with
  | nil =>
    simp only [List.nil_append, List.head?_cons, Option.some.injEq] at h
    exact ⟨rfl, h⟩
  | cons y t =>
    simp only [List.cons_append, List.head?_cons, Option.some.injEq] at h
    have := hfront y (by simp)
    rw [h] at this
    exact Bool.noConfusion this

theorem served_split {ahead behind : List Item} {x : Item}
    (hahead : ∀ y ∈ ahead, y.2.isSome = true) (hx : x.2.isSome = false) :
    served (ahead ++ x :: behind) = ahead := by
  unfold served
  rw [List.takeWhile_append_of_pos hahead, List.takeWhile_cons_of_neg (by simp [hx])]
  simp

theorem joined_store {c : hash_calc} (hc : Inv c) (hj : c.joined = true)
    (hne : c.m_threads ≠ []) :
    (∀ k b, (k, some b) ∈ served c.pushed → ∃ d, (k, d) ∈ c.m_digests) ∧
    (∀ e ∈ c.m_digests, ∃ b, (e.1, some b) ∈ served c.pushed ∧ e.2 = MD5 b c.m_block_size) := by
  have hall : c.m_threads.all Worker.finished = true := by
    simp only [hash_calc.joined, Bool.and_eq_true] at hj
    exact hj.2
  obtain ⟨done, hperm, hs1, hs2⟩ := finished_done hc hall hne
  constructor
  · intro k b hk
    have := hperm.symm.subset hk
    simp only [List.mem_map, Prod.mk.injEq, Option.some.injEq] at this
    obtain ⟨p, hp, h1, h2⟩ := this
    obtain ⟨v, hv⟩ := hs1 p hp
    rw [h1] at hv
    exact ⟨v, hv⟩
  · intro e he
    obtain ⟨b, hb, hb2⟩ := hs2 e he
    refine ⟨b, ?_, hb2⟩
    apply hperm.subset
    simp only [List.mem_map]
    exact ⟨(e.1, b), hb, rfl⟩

theorem run_at_empty_block {c c' : hash_calc} {i : Nat} {wake : Option Nat} {n : Int}
    (hn : n ≠ -1) (hq : c.m_queue.head? = some (n, none))
    (h : c.step (Action.run i wake) = some c') :
    c'.m_threads[i]? = some (Worker.failed n) ∧ c'.m_queue = c.m_queue := by
  have hsec : ∀ (d : List (Int × List Nat)) (w : Worker), c.m_threads[i]? = some w →
      c.section_of i wake d = some c' →
      c'.m_threads[i]? = some (Worker.failed n) ∧ c'.m_queue = c.m_queue := by
    intro d w hi hs
    rcases section_of_cases hs with ⟨hq0, -, rfl⟩ | ⟨rest, ts, hq1, -, rfl⟩ |
        ⟨m, rest, hq1, -, -, rfl⟩ | ⟨m, b, rest, hq1, -, rfl⟩
    · rw [hq0] at hq
      simp at hq
    · rw [hq1] at hq
      simp only [List.head?_cons, Option.some.injEq, exit_condition, Prod.mk.injEq,
        and_true] at hq
      exact absurd hq.symm hn
    · rw [hq1] at hq
      simp only [List.head?_cons, Option.some.injEq, Prod.mk.injEq, and_true] at hq
      subst hq
      exact ⟨getElem?_set_self_of_some hi, rfl⟩
    · rw [hq1] at hq
      simp at hq
  simp only [hash_calc.step] at h
  split at h
  · rename_i hi
    exact hsec _ _ hi h
  · rename_i m b hi
    exact hsec _ _ hi h
  · exact Option.noConfusion h

/-! ## The argument scan of `main` -/

theorem args_loop_add (argv : List String) (k1 k2 i : Nat) (a : Args) :
    args_loop argv (k1 + k2) i a =
      (args_loop argv k1 i a).bind (fun a1 => args_loop argv k2 (i + k1) a1) := by
  induction k1 generalizing i a with
  | zero =>
    rw [Nat.zero_add]
    rfl
  | succ k ih =>
    rw [Nat.succ_add]
    show (args_body argv i a).bind (fun a1 => args_loop argv (k + k2) (i + 1) a1) =
      ((args_body argv i a).bind (fun a1 => args_loop argv k (i + 1) a1)).bind
        (fun a1 => args_loop argv k2 (i + (k + 1)) a1)
    cases hb : args_body argv i a with
    | error e => rfl
    | ok a1 =>
      show args_loop argv (k + k2) (i + 1) a1 =
        (args_loop argv k (i + 1) a1).bind (fun a1 => args_loop argv k2 (i + (k + 1)) a1)
      rw [ih]
      have : i + 1 + k = i + (k + 1) := by omega
      rw [this]

theorem args_body_bad (argv : List String) (i : Nat) (a : Args) (hodd : i % 2 = 1)
    (hbad : i + 1 ≥ argv.length ∨
      (argv.getD i "" ≠ "-i" ∧ argv.getD i "" ≠ "-o" ∧ argv.getD i "" ≠ "-bs")) :
    args_body argv i a = Except.error Exception.invalid_argument := by
  have h0 : i ≠ 0 := by
    intro h
    rw [h] at hodd
    simp at hodd
  unfold args_body
  simp only [h0, if_false, hodd, if_true]
  rcases hbad with hlast | ⟨h1, h2, h3⟩
  · simp only [hlast, if_true]
    split_ifs <;> rfl
  · simp only [Ne.symm h1, Ne.symm h2, Ne.symm h3, if_false]

theorem parse_args_bad (argv : List String) (i : Nat) (a : Args) (hodd : i % 2 = 1)
    (hi : i < argv.length) (hpre : args_loop argv i 0 Args.initial = Except.ok a)
    (hbad : i + 1 ≥ argv.length ∨
      (argv.getD i "" ≠ "-i" ∧ argv.getD i "" ≠ "-o" ∧ argv.getD i "" ≠ "-bs")) :
    parse_args argv = Except.error Exception.invalid_argument := by
  unfold parse_args
  split_ifs with hlen
  · rfl
  · have hsplit : argv.length = i + ((argv.length - i - 1) + 1) := by omega
    rw [hsplit, args_loop_add, hpre]
    simp only [Except.bind, args_loop, Nat.zero_add]
    rw [args_body_bad argv i a hodd hbad]

theorem getD_ne_of_not_mem {argv : List String} {s : String} (hs : s ≠ "") (h : s ∉ argv)
    (i : Nat) : argv.getD i "" ≠ s := by
  intro heq
  by_cases hi : i < argv.length
  · apply h
    rw [← heq, List.getD_eq_getElem _ _ hi]
    exact List.getElem_mem hi
  · rw [List.getD_eq_default _ _ (by omega)] at heq
    exact hs heq.symm

theorem args_body_ok {argv : List String} {i : Nat} {a a1 : Args}
    (h : args_body argv i a = Except.ok a1) :
    a1 = a ∨
    (argv.getD i "" = "-i" ∧ a1.output_name = a.output_name) ∨
    (argv.getD i "" = "-o" ∧ a1.input_name = a.input_name) ∨
    (a1.input_name = a.input_name ∧ a1.output_name = a.output_name) := by
  unfold args_body at h
  by_cases h0 : i = 0
  · simp only [h0, if_true] at h
    injection h with h
    exact Or.inl h.symm
  · simp only [h0, if_false] at h
    by_cases h1 : i % 2 = 1
    · simp only [h1, if_true] at h
      by_cases hlast : i + 1 ≥ argv.length
      · simp only [hlast, if_true] at h
        split_ifs at h
      · simp only [hlast, if_false] at h
        by_cases hi : "-i" = argv.getD i ""
        · simp only [hi, if_true] at h
          injection h with h
          exact Or.inr (Or.inl ⟨hi.symm, by rw [← h]⟩)
        · simp only [hi, if_false] at h
          by_cases ho : "-o" = argv.getD i ""
          · simp only [ho, if_true] at h
            injection h with h
            exact Or.inr (Or.inr (Or.inl ⟨ho.symm, by rw [← h]⟩))
          · simp only [ho, if_false] at h
            by_cases hb : "-bs" = argv.getD i ""
            · simp only [hb, if_true] at h
              cases hs : stoi (argv.getD (i + 1) "") with
              | error e =>
                rw [hs] at h
                exact Except.noConfusion h
              | ok v =>
                rw [hs] at h
                simp only [Except.map] at h
                injection h with h
                exact Or.inr (Or.inr (Or.inr ⟨by rw [← h], by rw [← h]⟩))
            · simp only [hb, if_false] at h
              exact Except.noConfusion h
    · simp only [h1, if_false] at h
      injection h with h
      exact Or.inl h.symm

theorem args_body_input_name {argv : List String} {i : Nat} {a a1 : Args}
    (hno : argv.getD i "" ≠ "-i") (h : args_body argv i a = Except.ok a1) :
    a1.input_name = a.input_name := by
  rcases args_body_ok h with h | ⟨h, -⟩ | ⟨-, h⟩ | ⟨h, -⟩
  · rw [h]
  · exact absurd h hno
  · exact h
  · exact h

theorem args_body_output_name {argv : List String} {i : Nat} {a a1 : Args}
    (hno : argv.getD i "" ≠ "-o") (h : args_body argv i a = Except.ok a1) :
    a1.output_name = a.output_name := by
  rcases args_body_ok h with h | ⟨-, h⟩ | ⟨h, -⟩ | ⟨-, h⟩
  · rw [h]
  · exact h
  · exact absurd h hno
  · exact h

theorem args_loop_names {argv : List String} (k : Nat) {i : Nat} {a a1 : Args}
    (h : args_loop argv k i a = Except.ok a1) :
    ("-i" ∉ argv → a1.input_name = a.input_name) ∧
    ("-o" ∉ argv → a1.output_name = a.output_name) := by
  induction k generalizing i a with
  | zero =>
    simp only [args_loop] at h
    injection h with h
    rw [h]
    exact ⟨fun _ => rfl, fun _ => rfl⟩
  | succ k ih =>
    simp only [args_loop] at h
    cases hb : args_body argv i a with
    | error e => rw [hb] at h; exact Except.noConfusion h
    | ok a2 =>
      rw [hb] at h
      simp only [Except.bind] at h
      have h2 := ih h
      constructor
      · intro hno
        rw [h2.1 hno]
        exact args_body_input_name (getD_ne_of_not_mem (by decide) hno i) hb
      · intro hno
        rw [h2.2 hno]
        exact args_body_output_name (getD_ne_of_not_mem (by decide) hno i) hb

/-! ## Blocks and digests of a run of `main` -/

theorem pipeline_output {bytes : List Nat} {bs tc fuel : Nat} {st : ReadLoop} {c : hash_calc}
    (hbs : 1 ≤ bs) (hloop : read_loop bs fuel (ReadLoop.start bytes) = some st)
    (hreach : Reachable bs tc c) (hpushed : c.pushed = st.added ++ [exit_condition])
    (hjoined : c.joined = true) :
    st.added.length = bytes.length / bs + 1 ∧
    st.added = (List.range st.added.length).map
      (fun (i : Nat) => ((i : Int), some (block_at bytes bs i))) ∧
    c.m_digests = (List.range st.added.length).map
      (fun (i : Nat) => ((i : Int), MD5 (block_at bytes bs i) bs)) ∧
    c.output = (List.range st.added.length).flatMap (fun i => MD5 (block_at bytes bs i) bs) ∧
    c.output.length = st.added.length * MD5_DIGEST_LENGTH ∧
    (∀ i, i < st.added.length →
      (c.output.drop (i * MD5_DIGEST_LENGTH)).take MD5_DIGEST_LENGTH =
        MD5 (block_at bytes bs i) bs) := by
  have hadded := read_loop_some hbs hloop
  have hlen : st.added.length = bytes.length / bs + 1 := by
    rw [hadded, blocks_upto_length]
  rw [hadded] at hpushed
  have hdig := pipeline_digests hreach hpushed hjoined
  have hout : c.output =
      (List.range (bytes.length / bs + 1)).flatMap (fun i => MD5 (block_at bytes bs i) bs) := by
    unfold hash_calc.output
    rw [hdig, output_digests_of]
  rw [hlen]
  refine ⟨rfl, hadded, hdig, hout, ?_, ?_⟩
  · rw [hout, flatMap_length_const _ MD5_DIGEST_LENGTH (fun i => MD5_length _ _),
      List.length_range]
  · intro i hi
    rw [hout]
    apply flatMap_slice _ MD5_DIGEST_LENGTH (fun i => MD5_length _ _)
    rw [List.getElem?_range hi]

theorem no_failed_of_data {c : hash_calc} {items : List Item} (hc : Inv c)
    (hdata : ∀ it ∈ items, it.2.isSome = true)
    (hpushed : c.pushed = items ++ [exit_condition]) :
    (∀ n, Worker.failed n ∉ c.m_threads) ∧
    (Worker.exited ∈ c.m_threads → c.m_queue = [exit_condition]) := by
  obtain ⟨popped, front, h1, h2, -⟩ := queue_split hc hpushed rfl
  have hfront : ∀ y ∈ front, y.2.isSome = true := by
    intro y hy
    apply hdata
    rw [h1]
    exact List.mem_append_right _ hy
  constructor
  · intro n hw
    have hf := hc.failed n hw
    rw [h2] at hf
    have := (front_nil_of_head hfront hf.2).2
    simp only [exit_condition, Prod.mk.injEq, and_true] at this
    exact hf.1 this.symm
  · intro hw
    have he := hc.exited hw
    rw [h2] at he
    have := (front_nil_of_head hfront he).1
    rw [h2, this]
    rfl

theorem served_all_data {items : List Item} (hdata : ∀ it ∈ items, it.2.isSome = true) :
    served (items ++ [exit_condition]) = items :=
  served_split hdata rfl

theorem distinct_unique {items : List Item} (h : distinct_numbers items) {k : Int}
    {x y : List Nat} (hx : (k, some x) ∈ items) (hy : (k, some y) ∈ items) : x = y := by
  have hx1 : (k, some x) ∈ items.filter (fun it => it.2.isSome) := by
    simp [List.mem_filter, hx]
  have hy1 : (k, some y) ∈ items.filter (fun it => it.2.isSome) := by
    simp [List.mem_filter, hy]
  have := unique_of_nodup_keys h hx1 hy1
  injection this

theorem copies_append {α : Type} [DecidableEq α] (x : α) (l1 l2 : List α) :
    copies x (l1 ++ l2) = copies x l1 + copies x l2 := by
  simp [copies, List.countP_append]

theorem copies_perm {α : Type} [DecidableEq α] (x : α) {l1 l2 : List α} (h : l1.Perm l2) :
    copies x l1 = copies x l2 :=
  h.countP_eq _

theorem copies_pos_iff {α : Type} [DecidableEq α] (x : α) (l : List α) :
    0 < copies x l ↔ x ∈ l := by
  unfold copies
  rw [List.countP_pos_iff]
  constructor
  · rintro ⟨a, ha, h⟩
    have : a = x := by simpa using h
    rw [← this]
    exact ha
  · intro h
    exact ⟨x, h, by simp⟩

theorem copies_cons {α : Type} [DecidableEq α] (x a : α) (l : List α) :
    copies x (a :: l) = copies x l + (if a = x then 1 else 0) := by
  unfold copies
  rw [List.countP_cons]
  simp

theorem copies_held (ts : List Worker) (n : Int) (b : List Nat) :
    copies ((n, some b) : Item) (held ts) = copies (Worker.hashing n b) ts := by
  induction ts with
  | nil => rfl
  | cons w t ih =>
    rw [copies_cons]
    unfold held at ih ⊢
    rw [List.filterMap_cons]
    cases w with
    | hashing m d =>
      simp only [Worker.item]
      rw [copies_cons, ih]
      by_cases h : m = n ∧ d = b
      · obtain ⟨rfl, rfl⟩ := h
        simp
      · have h1 : ¬ ((m, some d) = ((n, some b) : Item)) := by
          intro he
          injection he with he1 he2
          injection he2 with he2
          exact h ⟨he1, he2⟩
        have h2 : ¬ (Worker.hashing m d = Worker.hashing n b) := by
          intro he
          injection he with he1 he2
          exact h ⟨he1, he2⟩
        simp [h1, h2]
    | runnable => simp [Worker.item, ih]
    | waiting => simp [Worker.item, ih]
    | exited => simp [Worker.item, ih]
    | failed m => simp [Worker.item, ih]

theorem copies_le_one_of_distinct {items : List Item} (h : distinct_numbers items) (n : Int)
    (b : List Nat) : copies ((n, some b) : Item) items ≤ 1 := by
  induction items with
  | nil => simp [copies]
  | cons a t ih =>
    have ht : distinct_numbers t := by
      unfold distinct_numbers at h ⊢
      rw [List.filter_cons] at h
      split_ifs at h
      · exact (List.nodup_cons.1 h).2
      · exact h
    rw [copies_cons]
    by_cases ha : a = (n, some b)
    · have hnot : ((n, some b) : Item) ∉ t := by
        intro hm
        have h1 : ((n, some b) : Item) ∈ a :: t := List.mem_cons_of_mem _ hm
        unfold distinct_numbers at h
        rw [ha, List.filter_cons] at h
        simp only [Option.isSome_some, if_true, List.map_cons, List.nodup_cons, List.mem_map,
          List.mem_filter] at h
        exact h.1 ⟨(n, some b), ⟨hm, rfl⟩, rfl⟩
      have hzero : copies ((n, some b) : Item) t = 0 := by
        by_contra hne
        exact hnot ((copies_pos_iff _ _).1 (Nat.pos_of_ne_zero hne))
      rw [hzero, if_pos ha]
    · rw [if_neg ha]
      exact ih ht

theorem last_block_eq (bytes : List Nat) (bs : Nat) (hbs : 1 ≤ bs) :
    block_at bytes bs (bytes.length / bs) =
      bytes.drop (bytes.length - bytes.length % bs) ++
        List.replicate (bs - bytes.length % bs) 0 := by
  have h2 := Nat.div_add_mod bytes.length bs
  have h3 : bs * (bytes.length / bs) = bytes.length / bs * bs := Nat.mul_comm _ _
  have hq : bytes.length / bs * bs = bytes.length - bytes.length % bs := by omega
  have hr := Nat.mod_lt bytes.length (show bs > 0 by omega)
  have hlen : (bytes.drop (bytes.length - bytes.length % bs)).length = bytes.length % bs := by
    rw [List.length_drop]
    omega
  unfold block_at
  simp only [hq]
  rw [List.take_of_length_le (by omega), hlen]

theorem ceil_of_dvd (len bs : Nat) (hbs : 1 ≤ bs) (hdiv : len % bs = 0) :
    (len + bs - 1) / bs = len / bs := by
  have h2 := Nat.div_add_mod len bs
  rw [hdiv, Nat.add_zero] at h2
  have h3 : len + bs - 1 = (bs - 1) + bs * (len / bs) := by omega
  rw [h3, Nat.add_mul_div_left _ _ (show 0 < bs by omega), Nat.div_eq_of_lt (by omega)]
  omega

/-! ## Runs exist -/

theorem exec_append (c : hash_calc) (s1 s2 : List Action) :
    c.exec (s1 ++ s2) = (c.exec s1).bind (fun c1 => c1.exec s2) := by
  induction s1 generalizing c with
  | nil => rfl
  | cons a rest ih =>
    simp only [List.cons_append, hash_calc.exec]
    cases c.step a with
    | none => rfl
    | some c1 => simpa using ih c1

theorem exec_feed (c : hash_calc) (hcal : c.caller = Caller.feeding) (items : List Item) :
    ∃ c1, c.exec (items.flatMap (fun it => [Action.add_block it, Action.notify_all])) = some c1 ∧
      c1.caller = Caller.feeding ∧ c1.pushed = c.pushed ++ items := by
  induction items generalizing c with
  | nil => exact ⟨c, rfl, hcal, by simp⟩
  | cons it rest ih =>
    obtain ⟨c1, h1, h2, h3⟩ := ih
      { c with m_queue := c.m_queue ++ [it], pushed := c.pushed ++ [it],
               m_threads := notify_all c.m_threads, caller := Caller.feeding } rfl
    refine ⟨c1, ?_, h2, ?_⟩
    · simp only [List.flatMap_cons, List.cons_append, List.nil_append, hash_calc.exec,
        hash_calc.step, hcal, if_true, Option.bind_some]
      exact h1
    · rw [h3]
      simp

theorem exists_run (bs tc : Nat) (items : List Item) :
    ∃ c, Reachable bs tc c ∧ c.pushed = items ++ [exit_condition] ∧ c.joined = true := by
  obtain ⟨c1, h1, h2, h3⟩ := exec_feed (hash_calc.new bs tc) rfl items
  have hstep : c1.step Action.finish = some
      { c1 with m_queue := c1.m_queue ++ [exit_condition],
                pushed := c1.pushed ++ [exit_condition],
                caller := Caller.notifying true } := by
    simp [hash_calc.step, h2]
  have hinv1 : Inv c1 := inv_exec _ (inv_new bs tc) h1
  have hinv2 := inv_step hinv1 hstep
  obtain ⟨sch, c3, h4, h5⟩ := exists_join hinv2 (Or.inl rfl)
  have h6 := (exec_budget sch hinv2 (Or.inl rfl) h4).2.2
  refine ⟨c3, ⟨items.flatMap (fun it => [Action.add_block it, Action.notify_all])
      ++ (Action.finish :: sch), ?_⟩, ?_, h5⟩
  · rw [exec_append, h1]
    show (c1.step Action.finish).bind (fun c2 => c2.exec sch) = some c3
    rw [hstep]
    exact h4
  · rw [h6]
    show c1.pushed ++ [exit_condition] = items ++ [exit_condition]
    rw [h3]
    rfl

theorem exists_main_run (bytes : List Nat) (bs tc : Nat) (hbs : 1 ≤ bs) :
    ∃ (fuel : Nat) (st : ReadLoop) (c : hash_calc),
      read_loop bs fuel (ReadLoop.start bytes) = some st ∧ Reachable bs tc c ∧
      c.pushed = st.added ++ [exit_condition] ∧ c.joined = true := by
  obtain ⟨c, h1, h2, h3⟩ := exists_run bs tc (blocks_upto bytes bs (bytes.length / bs + 1))
  exact ⟨bytes.length / bs + 1, _, c, read_loop_result bytes bs hbs _ (Nat.le_refl _), h1, h2, h3⟩

/-! ## The claims -/

/-- C1: for every input and every `block_size >= 1` a run of `main` gets to the point where
`finish()` has returned, and in every such run, where `st` is what the read loop leaves and
`c` the object at that point: the loop has enqueued the blocks `buf_0 .. buf_(n-1)` numbered
in order, each the `block_size` bytes of the input at that place filled up with zeros; the
map holds under each number the digest of that block and nothing else; the bytes written are
the digests of the blocks in ascending block order, `n * MD5_DIGEST_LENGTH` of them, the
digest of block `i` at offset `i * MD5_DIGEST_LENGTH`; and no thread has failed. -/
theorem output_is_block_digests (bytes : List Nat) (block_size thread_count : Nat)
    (hbs : 1 ≤ block_size) :
    (∃ (fuel : Nat) (st : ReadLoop) (c : hash_calc),
      read_loop block_size fuel (ReadLoop.start bytes) = some st ∧
      Reachable block_size thread_count c ∧
      c.pushed = st.added ++ [exit_condition] ∧ c.joined = true) ∧
    (∀ (fuel : Nat) (st : ReadLoop) (c : hash_calc),
      read_loop block_size fuel (ReadLoop.start bytes) = some st →
      Reachable block_size thread_count c →
      c.pushed = st.added ++ [exit_condition] → c.joined = true →
      st.added = (List.range st.added.length).map
        (fun (i : Nat) => ((i : Int), some (block_at bytes block_size i))) ∧
      (∀ i, (block_at bytes block_size i).length = block_size ∧
        block_at bytes block_size i =
          (bytes.drop (i * block_size)).take block_size ++
            List.replicate
              (block_size - ((bytes.drop (i * block_size)).take block_size).length) 0) ∧
      c.m_digests = (List.range st.added.length).map
        (fun (i : Nat) => ((i : Int), MD5 (block_at bytes block_size i) block_size)) ∧
      c.m_digests.length = st.added.length ∧
      c.output = (List.range st.added.length).flatMap
        (fun i => MD5 (block_at bytes block_size i) block_size) ∧
      c.output.length = st.added.length * MD5_DIGEST_LENGTH ∧
      (∀ i, i < st.added.length →
        (c.output.drop (i * MD5_DIGEST_LENGTH)).take MD5_DIGEST_LENGTH =
          MD5 (block_at bytes block_size i) block_size) ∧
      (∀ n, Worker.failed n ∉ c.m_threads)) := by
  refine ⟨exists_main_run bytes block_size thread_count hbs, ?_⟩
  intro fuel st c hloop hreach hpushed hjoined
  obtain ⟨-, h2, h3, h4, h5, h6⟩ := pipeline_output hbs hloop hreach hpushed hjoined
  have hdata : ∀ it ∈ st.added, it.2.isSome = true := by
    intro it hit
    rw [h2] at hit
    simp only [List.mem_map] at hit
    obtain ⟨i, -, rfl⟩ := hit
    rfl
  refine ⟨h2, fun i => ⟨block_at_length bytes block_size i, rfl⟩, h3, ?_, h4, h5, h6,
    (no_failed_of_data (inv_reachable hreach) hdata hpushed).1⟩
  rw [h3]
  simp

/-- C1, at the three bytes "abc" with 16-byte blocks and two threads. -/
theorem output_is_block_digests_witness :
    abc_state.output = (List.range 1).flatMap (fun i => MD5 (block_at [0x61, 0x62, 0x63] 16 i) 16)
      ∧ abc_state.output.length = 1 * MD5_DIGEST_LENGTH :=
  have h := (output_is_block_digests [0x61, 0x62, 0x63] 16 2 (by decide)).2 1 abc_loop
    abc_state rfl ⟨abc_schedule, rfl⟩ rfl rfl
  ⟨h.2.2.2.2.1, h.2.2.2.2.2.1⟩

/-- C2, amended: when the blocks passed to `add_block` carry pairwise distinct numbers, the
map and the output after `finish()` are the same for every number of threads and every
schedule. -/
theorem result_deterministic (block_size : Nat) (items : List Item) (t1 t2 : Nat)
    (c1 c2 : hash_calc) (hidx : distinct_numbers items)
    (h1 : Reachable block_size t1 c1) (h2 : Reachable block_size t2 c2)
    (hp1 : c1.pushed = items ++ [exit_condition]) (hp2 : c2.pushed = items ++ [exit_condition])
    (hj1 : c1.joined = true) (hj2 : c2.joined = true) :
    c1.m_digests = c2.m_digests ∧ c1.output = c2.output := by
  have key : ∀ (t : Nat) (c : hash_calc), Reachable block_size t c →
      c.pushed = items ++ [exit_condition] → c.joined = true → ∀ e,
      (e ∈ c.m_digests ↔
        ∃ b, (e.1, some b) ∈ served (items ++ [exit_condition]) ∧ e.2 = MD5 b block_size) := by
    intro t c hr hp hj e
    have hall : c.m_threads.all Worker.finished = true := by
      simp only [hash_calc.joined, Bool.and_eq_true] at hj
      exact hj.2
    have := mem_digests_iff (inv_reachable hr) hall (reachable_threads_ne_nil hr) ?_ e
    · rw [this, hp, (reachable_shape hr).1]
    · intro k x y hx hy
      rw [hp] at hx hy
      exact distinct_unique hidx (served_subset hx).1 (served_subset hy).1
  have hd : c1.m_digests = c2.m_digests := by
    apply sorted_ext (inv_reachable h1).sorted (inv_reachable h2).sorted
    intro e
    rw [key t1 c1 h1 hp1 hj1 e, key t2 c2 h2 hp2 hj2 e]
  exact ⟨hd, by unfold hash_calc.output; rw [hd]⟩

/-- C2, amended, at two blocks numbered 0 and 1, with two threads and with one. -/
theorem result_deterministic_witness :
    pair_state_two.m_digests = pair_state_one.m_digests ∧
      pair_state_two.output = pair_state_one.output :=
  result_deterministic 1 pair_items 2 1 pair_state_two pair_state_one
    (by unfold distinct_numbers; decide) ⟨pair_schedule_two, rfl⟩ ⟨pair_schedule_one, rfl⟩
    rfl rfl rfl rfl

/-- C2 as stated fails: two blocks passed under the same number 0, then `finish()`; with two
threads the map can end up with the digest of the second block, with one thread it holds the
digest of the first. -/
theorem result_depends_on_schedule :
    Reachable 1 2 twice_state_two ∧ Reachable 1 1 twice_state_one ∧
    twice_state_two.pushed = twice_items ++ [exit_condition] ∧
    twice_state_one.pushed = twice_items ++ [exit_condition] ∧
    twice_state_two.joined = true ∧ twice_state_one.joined = true ∧
    twice_state_two.m_digests ≠ twice_state_one.m_digests :=
  ⟨⟨twice_schedule_two, rfl⟩, ⟨twice_schedule_one, rfl⟩, rfl, rfl, rfl, rfl, by decide⟩

/-- C3, the code at an input that is a whole number of blocks: the read loop ends after
`length / block_size + 1` passes, one more than `ceil(length / block_size)`, and the last
block it enqueues holds no input byte. -/
theorem read_loop_extra_block (bytes : List Nat) (block_size : Nat) (hbs : 1 ≤ block_size)
    (hdiv : bytes.length % block_size = 0) :
    ∃ st, read_loop block_size (bytes.length / block_size + 1) (ReadLoop.start bytes) = some st ∧
      st.added.length = (bytes.length + block_size - 1) / block_size + 1 ∧
      st.added.getLast? =
        some (((bytes.length / block_size : Nat) : Int), some (List.replicate block_size 0)) := by
  refine ⟨_, read_loop_result bytes block_size hbs _ (Nat.le_refl _), ?_, ?_⟩
  · rw [blocks_upto_length, ceil_of_dvd _ _ hbs hdiv]
  · simp only [blocks_upto, List.range_succ, List.map_append, List.map_cons, List.map_nil]
    rw [List.getLast?_concat, last_block_eq bytes block_size hbs, hdiv]
    simp

/-- C3, the code at four bytes read in blocks of four. -/
theorem read_loop_extra_block_witness :
    ∃ st, read_loop 4 (4 / 4 + 1) (ReadLoop.start [1, 2, 3, 4]) = some st ∧
      st.added.length = (4 + 4 - 1) / 4 + 1 ∧
      st.added.getLast? = some (((4 / 4 : Nat) : Int), some (List.replicate 4 0)) :=
  read_loop_extra_block [1, 2, 3, 4] 4 (by decide) (by decide)

/-- C4, the code at the empty input: the read loop enqueues one block, all zeros; runs of
`main` exist, and each writes the `MD5_DIGEST_LENGTH` bytes of the digest of that block. -/
theorem empty_input_one_block (block_size thread_count : Nat) (hbs : 1 ≤ block_size) :
    (∀ fuel, 1 ≤ fuel → ∃ st, read_loop block_size fuel (ReadLoop.start []) = some st ∧
      st.added = [(0, some (List.replicate block_size 0))]) ∧
    (∃ (fuel : Nat) (st : ReadLoop) (c : hash_calc),
      read_loop block_size fuel (ReadLoop.start []) = some st ∧
      Reachable block_size thread_count c ∧
      c.pushed = st.added ++ [exit_condition] ∧ c.joined = true) ∧
    (∀ fuel st c, read_loop block_size fuel (ReadLoop.start []) = some st →
      Reachable block_size thread_count c → c.pushed = st.added ++ [exit_condition] →
      c.joined = true →
      c.output = MD5 (List.replicate block_size 0) block_size ∧
      c.output.length = MD5_DIGEST_LENGTH) := by
  have hblk : block_at [] block_size 0 = List.replicate block_size 0 := by
    simp [block_at]
  refine ⟨?_, exists_main_run [] block_size thread_count hbs, ?_⟩
  · intro fuel hf
    refine ⟨_, read_loop_result [] block_size hbs fuel (by simpa using hf), ?_⟩
    simp [blocks_upto, hblk, List.range_succ]
  · intro fuel st c hloop hreach hpushed hjoined
    obtain ⟨h1, -, -, h4, -, -⟩ := pipeline_output hbs hloop hreach hpushed hjoined
    have hone : st.added.length = 1 := by simpa using h1
    rw [hone] at h4
    have hout : c.output = MD5 (List.replicate block_size 0) block_size := by
      rw [h4]
      simp [hblk, List.range_succ]
    exact ⟨hout, by rw [hout, MD5_length]⟩

/-- C4, the code at the empty input with one-byte blocks. -/
theorem empty_input_one_block_witness :
    ∃ st, read_loop 1 1 (ReadLoop.start []) = some st ∧
      st.added = [(0, some (List.replicate 1 0))] :=
  (empty_input_one_block 1 1 (by decide)).1 1 (by decide)

/-- C5, amended: in every reachable state in which the blocks pushed so far carry pairwise
distinct numbers, every pushed block with data is in exactly one place: once in the queue, or
owned by exactly one hashing thread, or with its digest in the map under its number. -/
theorem block_in_one_place (block_size thread_count : Nat) (c : hash_calc)
    (hreach : Reachable block_size thread_count c) (hidx : distinct_numbers c.pushed)
    (n : Int) (b : List Nat) (hmem : (n, some b) ∈ c.pushed) :
    copies ((n, some b) : Item) c.m_queue + copies (Worker.hashing n b) c.m_threads +
      (if (n, MD5 b block_size) ∈ c.m_digests then 1 else 0) = 1 := by
  have hc := inv_reachable hreach
  have hbs := (reachable_shape hreach).1
  obtain ⟨popped, done, hp, hperm, hs1, hs2⟩ := hc.conserve
  have hcount : copies ((n, some b) : Item) c.pushed = 1 := by
    have h1 := copies_le_one_of_distinct hidx n b
    have h2 := (copies_pos_iff _ _).2 hmem
    omega
  have hsub : ∀ k d, (k, d) ∈ done → (k, some d) ∈ c.pushed := by
    intro k d hd
    rw [hp]
    apply List.mem_append_left
    apply hperm.symm.subset
    simp only [List.mem_append, List.mem_map]
    exact Or.inl ⟨(k, d), hd, rfl⟩
  have hdone : (n, b) ∈ done ↔
      ((n, some b) : Item) ∈ done.map (fun p => ((p.1, some p.2) : Item)) := by
    simp only [List.mem_map, Prod.mk.injEq, Option.some.injEq]
    constructor
    · intro h
      exact ⟨(n, b), h, rfl, rfl⟩
    · rintro ⟨p, hp1, h1, h2⟩
      have : p = (n, b) := Prod.ext h1 h2
      rw [← this]
      exact hp1
  have hstore : (n, MD5 b block_size) ∈ c.m_digests ↔ (n, b) ∈ done := by
    constructor
    · intro he
      obtain ⟨b1, hb1, hb2⟩ := hs2 _ he
      have : b1 = b := distinct_unique hidx (hsub _ _ hb1) hmem
      rw [← this]
      exact hb1
    · intro hd
      obtain ⟨v, hv⟩ := hs1 _ hd
      obtain ⟨b1, hb1, hb2⟩ := hs2 _ hv
      have hbb : b1 = b := distinct_unique hidx (hsub _ _ hb1) hmem
      have hv2 : v = MD5 b block_size := by
        have : v = MD5 b1 c.m_block_size := hb2
        rw [this, hbb, hbs]
      rw [← hv2]
      exact hv
  have htotal : copies ((n, some b) : Item) (done.map (fun p => ((p.1, some p.2) : Item)))
      + copies (Worker.hashing n b) c.m_threads
      + copies ((n, some b) : Item) c.m_queue = 1 := by
    rw [← hcount, hp, copies_append, copies_perm _ hperm, copies_append, copies_held]
  by_cases hd : (n, b) ∈ done
  · have hpos := (copies_pos_iff _ _).2 (hdone.1 hd)
    rw [if_pos (hstore.2 hd)]
    omega
  · have hzero : copies ((n, some b) : Item)
        (done.map (fun p => ((p.1, some p.2) : Item))) = 0 := by
      by_contra hne
      exact hd (hdone.2 ((copies_pos_iff _ _).1 (Nat.pos_of_ne_zero hne)))
    rw [if_neg (fun h => hd (hstore.1 h))]
    omega

/-- C5, amended, at block 0 of two blocks numbered 0 and 1 when `join()` has returned. -/
theorem block_in_one_place_witness :
    copies ((0, some [0]) : Item) pair_state_two.m_queue +
      copies (Worker.hashing 0 [0]) pair_state_two.m_threads +
      (if ((0 : Int), MD5 [0] 1) ∈ pair_state_two.m_digests then 1 else 0) = 1 :=
  block_in_one_place 1 2 pair_state_two ⟨pair_schedule_two, rfl⟩
    (by unfold distinct_numbers; decide) 0 [0] (by decide)

/-- C5 as stated fails: of two blocks passed under the same number 0 to a single thread, the
second is, when `join()` has returned, neither in the queue, nor owned by a thread, nor does
the map hold its digest. -/
theorem second_block_nowhere :
    Reachable 1 1 twice_state_one ∧
    ((0, some [1]) : Item) ∈ twice_state_one.pushed ∧
    ((0, some [1]) : Item) ∉ twice_state_one.m_queue ∧
    Worker.hashing 0 [1] ∉ twice_state_one.m_threads ∧
    ((0 : Int), MD5 [1] 1) ∉ twice_state_one.m_digests :=
  ⟨⟨twice_schedule_one, rfl⟩, by decide, by decide, by decide, by decide⟩

/-- C6: when `add_block` was called with blocks that all have data and `finish()` has pushed
the exit condition, then in every state that can follow: the exit condition is still the last
item of the queue; no thread has failed; a thread has left only when all blocks were popped;
the pending `notify_all` can be executed and, after it, no live thread is blocked and each
can take its next step; a schedule from here has at most `budget` steps, and one of them
ends with `join()` returned; and when `join()` has returned all threads have left through
`break`, the queue holds the exit condition alone, and the map holds a digest under
the number of every block, each entry the digest of a block with that number. -/
theorem finish_protocol (block_size thread_count : Nat) (items : List Item) (c : hash_calc)
    (hdata : ∀ it ∈ items, it.2.isSome = true)
    (hreach : Reachable block_size thread_count c)
    (hpushed : c.pushed = items ++ [exit_condition])
    (hfin : c.caller = Caller.notifying true ∨ c.caller = Caller.joining) :
    c.m_queue.getLast? = some exit_condition ∧
    (∀ n, Worker.failed n ∉ c.m_threads) ∧
    (Worker.exited ∈ c.m_threads → c.m_queue = [exit_condition]) ∧
    (c.caller = Caller.notifying true → ∃ c1, c.step Action.notify_all = some c1) ∧
    (c.caller = Caller.joining → ∀ (i : Nat) (w : Worker), c.m_threads[i]? = some w →
      w.finished = false → w ≠ Worker.waiting ∧ ∃ c1, c.step (Action.run i none) = some c1) ∧
    (∀ schedule c1, c.exec schedule = some c1 → schedule.length ≤ c.budget) ∧
    (∃ schedule c1, c.exec schedule = some c1 ∧ c1.joined = true) ∧
    (c.joined = true →
      c.m_threads =
        List.replicate (if thread_count < 1 then 1 else thread_count) Worker.exited ∧
      c.m_queue = [exit_condition] ∧
      (∀ k b, (k, some b) ∈ items → ∃ d, (k, d) ∈ c.m_digests) ∧
      (∀ e ∈ c.m_digests, ∃ b, (e.1, some b) ∈ items ∧ e.2 = MD5 b block_size)) := by
  have hc := inv_reachable hreach
  have hshape := reachable_shape hreach
  have hnf := no_failed_of_data hc hdata hpushed
  refine ⟨hc.token hfin, hnf.1, hnf.2, ?_, ?_, ?_, exists_join hc hfin, ?_⟩
  · intro hcal
    refine ⟨{ c with m_threads := notify_all c.m_threads, caller := Caller.joining }, ?_⟩
    simp [hash_calc.step, hcal]
  · intro hcal i w hi hw
    exact run_enabled hc hcal hi hw
  · intro schedule c1 h
    have := (exec_budget schedule hc hfin h).1
    omega
  · intro hj
    have hall : ∀ w ∈ c.m_threads, w.finished = true := by
      simp only [hash_calc.joined, Bool.and_eq_true, List.all_eq_true] at hj
      exact hj.2
    have hexit : ∀ w ∈ c.m_threads, w = Worker.exited := by
      intro w hw
      have hf := hall w hw
      cases w with
      | exited => rfl
      | failed n => exact absurd hw (hnf.1 n)
      | runnable => simp [Worker.finished] at hf
      | waiting => simp [Worker.finished] at hf
      | hashing n b => simp [Worker.finished] at hf
    have hne := reachable_threads_ne_nil hreach
    obtain ⟨w, hw⟩ := List.exists_mem_of_ne_nil _ hne
    have hw2 := hw
    rw [hexit w hw] at hw2
    have hstore := joined_store hc hj hne
    rw [hpushed, served_all_data hdata, hshape.1] at hstore
    refine ⟨?_, hnf.2 hw2, hstore.1, hstore.2⟩
    rw [List.eq_replicate_iff]
    exact ⟨hshape.2, hexit⟩

/-- C6, at two blocks numbered 0 and 1 and two threads, when `join()` has returned. -/
theorem finish_protocol_witness :
    pair_state_two.m_queue.getLast? = some exit_condition ∧
      pair_state_two.m_threads = List.replicate 2 Worker.exited :=
  have h := finish_protocol 1 2 pair_items pair_state_two (by decide)
    ⟨pair_schedule_two, rfl⟩ rfl (Or.inr rfl)
  ⟨h.1, (h.2.2.2.2.2.2.2 rfl).1⟩

/-- C7, amended: an item without data and with a number other than -1 is never taken out of
the queue. Whatever was pushed behind it stays queued behind it; every thread that takes the
lock while it is at the front fails on it and leaves the queue as it is; no thread leaves
through `break`, and a thread that has failed has failed on this item; the map holds only
digests of blocks pushed ahead of it; once `finish()` has pushed the exit condition some
schedule ends with `join()` returned; and when `join()` has returned all threads have failed
on the item, which is at the front, and the map holds a digest under the number of every
block pushed ahead of it. -/
theorem empty_block_stops_all (block_size thread_count : Nat) (ahead behind : List Item)
    (n : Int) (c : hash_calc) (hahead : ∀ it ∈ ahead, it.2.isSome = true) (hn : n ≠ -1)
    (hreach : Reachable block_size thread_count c)
    (hpushed : c.pushed = ahead ++ (n, none) :: behind) :
    (∃ front, c.m_queue = front ++ (n, none) :: behind) ∧
    (∀ i wake c1, c.m_queue.head? = some (n, none) → c.step (Action.run i wake) = some c1 →
      c1.m_threads[i]? = some (Worker.failed n) ∧ c1.m_queue = c.m_queue) ∧
    (∀ w ∈ c.m_threads, w ≠ Worker.exited ∧ ∀ m, w = Worker.failed m → m = n) ∧
    (∀ e ∈ c.m_digests, ∃ b, (e.1, some b) ∈ ahead ∧ e.2 = MD5 b block_size) ∧
    (c.caller = Caller.notifying true ∨ c.caller = Caller.joining →
      ∃ schedule c1, c.exec schedule = some c1 ∧ c1.joined = true) ∧
    (c.joined = true →
      c.m_threads =
        List.replicate (if thread_count < 1 then 1 else thread_count) (Worker.failed n) ∧
      c.m_queue = (n, none) :: behind ∧
      (∀ k b, (k, some b) ∈ ahead → ∃ d, (k, d) ∈ c.m_digests)) := by
  have hc := inv_reachable hreach
  have hshape := reachable_shape hreach
  obtain ⟨popped, front, h1, h2, h3⟩ := queue_split hc hpushed rfl
  have hfront : ∀ y ∈ front, y.2.isSome = true := by
    intro y hy
    apply hahead
    rw [h1]
    exact List.mem_append_right _ hy
  have hthreads : ∀ w ∈ c.m_threads, w ≠ Worker.exited ∧ ∀ m, w = Worker.failed m → m = n := by
    intro w hw
    constructor
    · intro he
      rw [he] at hw
      have := hc.exited hw
      rw [h2] at this
      have := (front_nil_of_head hfront this).2
      simp only [exit_condition, Prod.mk.injEq, and_true] at this
      exact hn this
    · intro m hm
      rw [hm] at hw
      have := (hc.failed m hw).2
      rw [h2] at this
      have := (front_nil_of_head hfront this).2
      simp only [Prod.mk.injEq, and_true] at this
      exact this.symm
  refine ⟨⟨front, h2⟩, ?_, hthreads, ?_, fun hfin => exists_join hc hfin, ?_⟩
  · intro i wake c1 hq hstep
    exact run_at_empty_block hn hq hstep
  · intro e he
    obtain ⟨b, hb, hb2⟩ := h3 e he
    refine ⟨b, ?_, ?_⟩
    · rw [h1]
      exact List.mem_append_left _ hb
    · rw [hb2, hshape.1]
  · intro hj
    have hall : ∀ w ∈ c.m_threads, w.finished = true := by
      simp only [hash_calc.joined, Bool.and_eq_true, List.all_eq_true] at hj
      exact hj.2
    have hfail : ∀ w ∈ c.m_threads, w = Worker.failed n := by
      intro w hw
      have hf := hall w hw
      cases w with
      | exited => exact absurd rfl (hthreads _ hw).1
      | failed m => rw [(hthreads _ hw).2 m rfl]
      | runnable => simp [Worker.finished] at hf
      | waiting => simp [Worker.finished] at hf
      | hashing m b => simp [Worker.finished] at hf
    have hne := reachable_threads_ne_nil hreach
    obtain ⟨w, hw⟩ := List.exists_mem_of_ne_nil _ hne
    have hw2 := hw
    rw [hfail w hw] at hw2
    have hhead := (hc.failed n hw2).2
    rw [h2] at hhead
    have hnil := (front_nil_of_head hfront hhead).1
    have hstore := joined_store hc hj hne
    have hserved : served (ahead ++ (n, none) :: behind) = ahead :=
      served_split hahead rfl
    rw [hpushed, hserved] at hstore
    refine ⟨?_, by rw [h2, hnil]; rfl, hstore.1⟩
    rw [List.eq_replicate_iff]
    exact ⟨hshape.2, hfail⟩

/-- C7, amended, at block 0, then item 7 without data, then block 1, with two threads. -/
theorem empty_block_stops_all_witness :
    stopped_state.m_threads = List.replicate 2 (Worker.failed 7) ∧
      stopped_state.m_queue = [(7, none), (1, some [1]), exit_condition] :=
  have h := empty_block_stops_all 1 2 [(0, some [0])] [(1, some [1]), exit_condition] 7
    stopped_state (by decide) (by decide) ⟨stopped_schedule, rfl⟩ rfl
  ⟨(h.2.2.2.2.2 rfl).1, (h.2.2.2.2.2 rfl).2.1⟩

/-- C7 as stated fails: with block 0, item 7 without data and block 1 passed to two threads
before `finish()`, `join()` can return with both threads failed on item 7, block 1 still in
the queue and no digest under number 1 in the map. -/
theorem empty_block_kills_every_thread :
    Reachable 1 2 stopped_state ∧ stopped_state.joined = true ∧
    stopped_state.pushed = [(0, some [0]), (7, none), (1, some [1]), exit_condition] ∧
    stopped_state.m_threads = [Worker.failed 7, Worker.failed 7] ∧
    ((1, some [1]) : Item) ∈ stopped_state.m_queue ∧
    stopped_state.m_digests.map Prod.fst = [0] :=
  ⟨⟨stopped_schedule, rfl⟩, rfl, rfl, rfl, by decide, rfl⟩

theorem negative_block_size_terminates (hardware_concurrency : Nat) :
    main_setup abc_files ["md5calc", "-i", "in", "-o", "out", "-bs", "-1"] =
      Except.ok ([0x61, 0x62, 0x63], 2 ^ 64 - 1) ∧
    main_terminates abc_files ["md5calc", "-i", "in", "-o", "out", "-bs", "-1"] ∧
    ∀ r, ¬ main_returns abc_files hardware_concurrency
      ["md5calc", "-i", "in", "-o", "out", "-bs", "-1"] r := by
  have hs : main_setup abc_files ["md5calc", "-i", "in", "-o", "out", "-bs", "-1"] =
      Except.ok ([0x61, 0x62, 0x63], 2 ^ 64 - 1) := rfl
  refine ⟨hs, ?_, ?_⟩
  · unfold main_terminates
    rw [hs]
    decide
  · intro r hr
    unfold main_returns at hr
    rw [hs] at hr
    have h1 : allocatable (2 ^ 64 - 1) = true := hr.1
    have h2 : allocatable (2 ^ 64 - 1) = false := by decide
    rw [h2] at h1
    exact Bool.noConfusion h1

/-- C8, amended: a run of `main` that returns, returns 0, 1 or 2. It returns 0 exactly when
the set-up succeeds, and a run that returns 0 exists when the block size is at least 1 and
can be allocated. When the set-up fails the value returned is the status of the exception
thrown, and no object was constructed, no block enqueued and nothing written. It returns 1
exactly when the argument scan throws `invalid_argument`, which it does without arguments
and when the scan arrives at an option that is the last word or is none of `-i`, `-o`,
`-bs`. It returns 2, the status of every exception other than `invalid_argument`, when the
input file or the output file does not open; without `-i` (without `-o`) the name opened is
empty. When the set-up succeeds with a block size that cannot be allocated, `main` does not
return. -/
theorem main_exit_status (fs : Files) (hardware_concurrency : Nat) (argv : List String)
    (r : MainRun) (h : main_returns fs hardware_concurrency argv r) :
    (r.result = 0 ∨ r.result = 1 ∨ r.result = 2) ∧
    (r.result = 0 ↔ ∃ v, main_setup fs argv = Except.ok v) ∧
    (∀ bytes block_size, main_setup fs argv = Except.ok (bytes, block_size) →
      1 ≤ block_size → allocatable block_size = true →
      ∃ r0, main_returns fs hardware_concurrency argv r0 ∧ r0.result = 0) ∧
    (∀ e, main_setup fs argv = Except.error e →
      r.result = exit_status e ∧ r.engine = none ∧ r.written = none) ∧
    (r.result = 1 ↔ parse_args argv = Except.error Exception.invalid_argument) ∧
    (argv.length < 2 → r.result = 1) ∧
    (∀ i a, i % 2 = 1 → i < argv.length →
      args_loop argv i 0 Args.initial = Except.ok a →
      (i + 1 ≥ argv.length ∨
        (argv.getD i "" ≠ "-i" ∧ argv.getD i "" ≠ "-o" ∧ argv.getD i "" ≠ "-bs")) →
      r.result = 1) ∧
    (∀ a, parse_args argv = Except.ok a → fs.read a.input_name = none → r.result = 2) ∧
    (∀ a, parse_args argv = Except.ok a → fs.write a.output_name = false → r.result = 2) ∧
    (∀ a, parse_args argv = Except.ok a → "-i" ∉ argv → a.input_name = "") ∧
    (∀ a, parse_args argv = Except.ok a → "-o" ∉ argv → a.output_name = "") ∧
    (∀ e, e ≠ Exception.invalid_argument → exit_status e = 2) ∧
    (∀ bytes block_size, main_setup fs argv = Except.ok (bytes, block_size) →
      allocatable block_size = true ∧ ¬ main_terminates fs argv) := by
  have hnames : ∀ a, parse_args argv = Except.ok a →
      ("-i" ∉ argv → a.input_name = "") ∧ ("-o" ∉ argv → a.output_name = "") := by
    intro a ha
    unfold parse_args at ha
    split_ifs at ha
    exact args_loop_names _ ha
  have hstat : ∀ e, e ≠ Exception.invalid_argument → exit_status e = 2 := by
    intro e he
    cases e with
    | invalid_argument => exact absurd rfl he
    | out_of_range => rfl
    | runtime_error => rfl
  have hone : parse_args argv = Except.error Exception.invalid_argument → r.result = 1 := by
    intro hp
    unfold main_returns main_setup at h
    rw [hp] at h
    simp only [Except.bind] at h
    rw [h]
    rfl
  have htwo : ∀ a, parse_args argv = Except.ok a →
      (fs.read a.input_name = none ∨ fs.write a.output_name = false) → r.result = 2 := by
    intro a hp hopen
    unfold main_returns main_setup at h
    rw [hp] at h
    simp only [Except.bind] at h
    cases hr : fs.read a.input_name with
    | none =>
      rw [hr] at h
      simp only at h
      rw [h]
      rfl
    | some bytes =>
      rw [hr] at h
      rcases hopen with hopen | hopen
      · rw [hr] at hopen
        exact Option.noConfusion hopen
      · simp only [hopen, Bool.false_eq_true, if_false] at h
        rw [h]
        rfl
  have hcases : (∃ e, main_setup fs argv = Except.error e ∧
        r = { result := exit_status e, engine := none, written := none }) ∨
      (∃ v, main_setup fs argv = Except.ok v ∧ r.result = 0) := by
    unfold main_returns at h
    cases hs : main_setup fs argv with
    | error e =>
      rw [hs] at h
      exact Or.inl ⟨e, rfl, h⟩
    | ok v =>
      rw [hs] at h
      obtain ⟨-, fuel, st, c, -, -, -, -, hr⟩ := h
      exact Or.inr ⟨v, rfl, by rw [hr]⟩
  have hstatus : ∀ e, exit_status e = 1 ∨ exit_status e = 2 := by
    intro e
    cases e <;> simp [exit_status]
  have hsetup_err : ∀ e, main_setup fs argv = Except.error e → exit_status e = 1 →
      parse_args argv = Except.error Exception.invalid_argument := by
    intro e hs he
    unfold main_setup at hs
    cases hp : parse_args argv with
    | error e1 =>
      rw [hp] at hs
      simp only [Except.bind] at hs
      injection hs with hs
      rw [hs]
      cases e with
      | invalid_argument => rfl
      | out_of_range => simp [exit_status] at he
      | runtime_error => simp [exit_status] at he
    | ok a =>
      rw [hp] at hs
      simp only [Except.bind] at hs
      cases hr : fs.read a.input_name with
      | none =>
        rw [hr] at hs
        simp only at hs
        injection hs with hs
        rw [← hs] at he
        simp [exit_status] at he
      | some bytes =>
        rw [hr] at hs
        simp only at hs
        split_ifs at hs
        injection hs with hs
        rw [← hs] at he
        simp [exit_status] at he
  have hexists : ∀ bytes block_size, main_setup fs argv = Except.ok (bytes, block_size) →
      1 ≤ block_size → allocatable block_size = true →
      ∃ r0, main_returns fs hardware_concurrency argv r0 ∧ r0.result = 0 := by
    intro bytes block_size hs hbs halloc
    obtain ⟨fuel, st, c, h1, h2, h3, h4⟩ :=
      exists_main_run bytes block_size hardware_concurrency hbs
    refine ⟨{ result := 0, engine := some c, written := some c.output }, ?_, rfl⟩
    unfold main_returns
    rw [hs]
    exact ⟨halloc, fuel, st, c, h1, h2, h3, h4, rfl⟩
  have halloc : ∀ bytes block_size, main_setup fs argv = Except.ok (bytes, block_size) →
      allocatable block_size = true ∧ ¬ main_terminates fs argv := by
    intro bytes block_size hs
    have h1 : allocatable block_size = true := by
      unfold main_returns at h
      rw [hs] at h
      exact h.1
    refine ⟨h1, ?_⟩
    unfold main_terminates
    rw [hs]
    simp [h1]
  have hconfig : ∀ e, main_setup fs argv = Except.error e →
      r.result = exit_status e ∧ r.engine = none ∧ r.written = none := by
    intro e hs
    unfold main_returns at h
    rw [hs] at h
    rw [h]
    exact ⟨rfl, rfl, rfl⟩
  refine ⟨?_, ?_, hexists, hconfig, ?_, ?_, ?_, ?_, ?_, fun a ha => (hnames a ha).1,
    fun a ha => (hnames a ha).2, hstat, halloc⟩
  · rcases hcases with ⟨e, -, hr⟩ | ⟨v, -, hr⟩
    · rw [hr]
      rcases hstatus e with he | he
      · exact Or.inr (Or.inl he)
      · exact Or.inr (Or.inr he)
    · exact Or.inl hr
  · constructor
    · intro h0
      rcases hcases with ⟨e, -, hr⟩ | ⟨v, hv, -⟩
      · rw [hr] at h0
        rcases hstatus e with he | he <;> rw [he] at h0 <;> simp at h0
      · exact ⟨v, hv⟩
    · rintro ⟨v, hv⟩
      rcases hcases with ⟨e, he, -⟩ | ⟨v1, -, hr⟩
      · rw [hv] at he
        exact Except.noConfusion he
      · exact hr
  · constructor
    · intro h1
      rcases hcases with ⟨e, he, hr⟩ | ⟨v, -, hr⟩
      · rw [hr] at h1
        exact hsetup_err e he h1
      · rw [hr] at h1
        simp at h1
    · exact hone
  · intro hlen
    apply hone
    unfold parse_args
    rw [if_pos hlen]
  · intro i a hodd hi hpre hbad
    exact hone (parse_args_bad argv i a hodd hi hpre hbad)
  · intro a ha hr
    exact htwo a ha (Or.inl hr)
  · intro a ha hw
    exact htwo a ha (Or.inr hw)

/-- C8, amended, at a command line that names two files where no file opens. -/
theorem main_exit_status_witness :
    main_returns no_files 1 plain_argv failed_open_run ∧
      failed_open_run.result = exit_status Exception.runtime_error ∧
      failed_open_run.engine = none ∧ failed_open_run.written = none :=
  ⟨rfl, (main_exit_status no_files 1 plain_argv failed_open_run rfl).2.2.2.1
    Exception.runtime_error rfl⟩

/-- C8 as stated fails: where no file opens, `main` without arguments returns 1, while `main`
with `-i in -o out` returns 2, which is also what the handler for any other exception, a
runtime failure, returns. -/
theorem open_failure_returns_two :
    main_returns no_files 1 ["md5calc"] usage_run ∧ usage_run.result = 1 ∧
    main_returns no_files 1 plain_argv failed_open_run ∧ failed_open_run.result = 2 ∧
    exit_status Exception.runtime_error = 2 ∧ exit_status Exception.out_of_range = 2 :=
  ⟨rfl, rfl, rfl, rfl, rfl, rfl⟩

/-- C10: `-bs 0` is accepted by the argument scan, and with `block_size = 0` the read loop
does not end: after any number `n` of passes its condition still holds and `n` blocks are
enqueued, so that no amount of fuel lets it end and no run of `main` returns. -/
theorem zero_block_size_never_ends (bytes : List Nat) :
    (∀ input_name output_name : String,
      parse_args ["md5calc", "-i", input_name, "-o", output_name, "-bs", "0"] =
        Except.ok { input_name := input_name, output_name := output_name, block_size := 0 }) ∧
    (∀ n, (loop_after 0 (ReadLoop.start bytes) n).input.ok = true ∧
      (loop_after 0 (ReadLoop.start bytes) n).added.length = n) ∧
    (∀ fuel, read_loop 0 fuel (ReadLoop.start bytes) = none) ∧
    (∀ (fs : Files) (hardware_concurrency : Nat) (argv : List String) (r : MainRun),
      main_setup fs argv = Except.ok (bytes, 0) →
      ¬ main_returns fs hardware_concurrency argv r) := by
  have hafter : ∀ n, loop_after 0 (ReadLoop.start bytes) n =
      { input := { unread := bytes.drop (n * 0), failbit := false },
        block_number := (n : Int), added := blocks_upto bytes 0 n } :=
    fun n => loop_after_full bytes 0 n (by simp)
  have hok : ∀ n, (loop_after 0 (ReadLoop.start bytes) n).input.ok = true := by
    intro n
    rw [hafter n]
    rfl
  have hnone : ∀ fuel, read_loop 0 fuel (ReadLoop.start bytes) = none :=
    fun fuel => read_loop_none_of_after 0 fuel _ (fun j _ => hok j)
  refine ⟨fun _ _ => rfl, ?_, hnone, ?_⟩
  · intro n
    refine ⟨hok n, ?_⟩
    rw [hafter n]
    exact blocks_upto_length _ _ _
  · intro fs hw argv r hs hr
    unfold main_returns at hr
    rw [hs] at hr
    obtain ⟨-, fuel, st, c, hloop, -⟩ := hr
    rw [hnone fuel] at hloop
    exact Option.noConfusion hloop

end Md5calc
